import Mathlib

/-!
Verification of the bmssp-go shortest-path library.

The repository contains two generations of the algorithm:

* `bmssp.go` / `dijkstra.go`: a Δ-stepping variant (`BMSSP`, `BMSSPSingleSource`,
  `dijkstraDeltaStepping`, `bucketQueue`) and a reference `Dijkstra` built on
  `container/heap`;
* the paper-faithful implementation (`BaseCase`, `DStruct`, `FindPivots` and the
  recursive `BMSSP(l, B, S, k, t, G, dhat)`).

This file gives a shallow embedding of both.  Go's `Dist` (an IEEE `float64`
restricted, on all inputs considered here, to finite values and `+Inf`) is
modelled as `WithTop ℚ`: addition saturates at infinity and comparisons against
infinity behave exactly as the float comparisons do for non-NaN values.  Go maps
are modelled as association lists; reading an absent key yields the Go zero value
`0` (`mapGet`), and the comma-ok form is modelled by an `Option` lookup.  Go map
iteration order is unspecified; sets built from maps are modelled as duplicate-free
lists recording one admissible iteration order, and theorems either quantify over
that order or are order-independent.  `sort.Slice` (any unstable comparison sort)
is modelled by `List.insertionSort`, which produces the same sorted-by-key
permutation up to tie order.  Loops whose termination is not structural are given explicit
fuel and return `Option`; a `none` result corresponds to a Go execution that
diverges or panics, as noted at each definition.
-/

unseal Rat.add Rat.mul Rat.inv Rat.sub Rat.ofScientific

namespace Bmssp

/-- Go type NodeID = int. -/
abbrev NodeID := ℤ

/-- Go type Dist = float64, used only at finite values and +Inf (INF). -/
abbrev Dst := WithTop ℚ

/-- The INF sentinel (math.Inf(1)). -/
def INF : Dst := ⊤

instance : Repr Dst where
  reprPrec d _ := repr (WithTop.recTopCoe (C := fun _ => Option ℚ) none some d)

/-- Directed edge: destination and weight (fields To/Weight in bmssp.go, V/W in
the paper implementation). -/
structure Edge where
  dst : NodeID
  w : Dst
deriving DecidableEq, Repr, Inhabited

/-- Association-list lookup modelling the comma-ok form of a Go map read. -/
def alGet? {β : Type} : List (NodeID × β) → NodeID → Option β
  | [], _ => none
  | (k, b) :: rest, v => if k = v then some b else alGet? rest v

/-- Association-list update modelling a Go map write. -/
def alSet {β : Type} : List (NodeID × β) → NodeID → β → List (NodeID × β)
  | [], v, b => [(v, b)]
  | (k, c) :: rest, v, b =>
      if k = v then (v, b) :: rest else (k, c) :: alSet rest v b

/-- Go map[NodeID]Dist.  Reading an absent key yields the zero value 0. -/
abbrev DMap := List (NodeID × Dst)

/-- Go map read `m[v]`: zero value 0 when the key is absent. -/
def mapGet (m : DMap) (v : NodeID) : Dst := (alGet? m v).getD 0

/-- Go map write `m[v] = d`. -/
def mapSet (m : DMap) (v : NodeID) (d : Dst) : DMap := alSet m v d

/-- Go directed graph: map from vertex to out-edge slice, modelled as an
association list in key-insertion order. -/
structure Graph where
  adj : List (NodeID × List Edge)
deriving DecidableEq, Repr

/-- Go NewGraph(). -/
def newGraph : Graph := ⟨[]⟩

/-- Go (g *Graph) AddEdge(from, to NodeID, weight Dist): appends the edge to the
adjacency slice of the tail vertex, creating the entry when absent.  There is no
validation of the weight. -/
def Graph.addEdge (g : Graph) (u v : NodeID) (wt : Dst) : Graph :=
  ⟨alSet g.adj u ((alGet? g.adj u).getD [] ++ [{ dst := v, w := wt }])⟩

/-- Go (g *Graph) OutEdges(u) / g.adj[u]: zero value (empty slice) when absent. -/
def Graph.outEdges (g : Graph) (u : NodeID) : List Edge :=
  (alGet? g.adj u).getD []

/-- Go NodeSet (map used as a set): duplicate-free list in one admissible
iteration order. -/
abbrev NodeSet := List NodeID

/-- Go NodeSet.Add: idempotent insertion. -/
def nsAdd (s : NodeSet) (v : NodeID) : NodeSet :=
  if v ∈ s then s else s ++ [v]

/-- Add each element of a list to a NodeSet in order (set-union loops in Go). -/
def nsAddAll (s : NodeSet) (l : List NodeID) : NodeSet :=
  l.foldl nsAdd s

example : ((3 : ℚ) : Dst) ≤ ((5 : ℚ) : Dst) := by decide
example : ¬ (INF < INF) := by decide
example : INF + ((2 : ℚ) : Dst) = INF := by decide
example : ((3 : ℚ) : Dst) + ((5 : ℚ) : Dst) = ((8 : ℚ) : Dst) := by decide
example : mapGet (mapSet [] 3 ((4 : ℚ) : Dst)) 3 = ((4 : ℚ) : Dst) := by decide

/-! ### The block priority structure D (example_test.go, Lemma 3.3 section) -/

/-- Go `type pair struct { v NodeID; d Dist }`. -/
structure Pair where
  v : NodeID
  d : Dst
deriving DecidableEq, Repr, Inhabited

/-- The ordering handed to sort.Slice in Insert and Pull: ascending by d.
Go sorts with the strict `arr[i].d < arr[j].d` and an unspecified unstable
algorithm; any result is a permutation ordered by d, which is what
`List.insertionSort` with the reflexive companion relation produces (tie order
is unspecified in Go, so one admissible order is chosen). -/
def pairLE (a b : Pair) : Prop := a.d ≤ b.d

instance : DecidableRel pairLE := fun a b => inferInstanceAs (Decidable (a.d ≤ b.d))

instance : IsTotal Pair pairLE := ⟨fun a b => le_total a.d b.d⟩

instance : IsTrans Pair pairLE := ⟨fun _ _ _ h1 h2 => le_trans h1 h2⟩

/-- Sorting a block by distance, the model of `sort.Slice(arr, d-ascending)`. -/
def sortByD (l : List Pair) : List Pair := l.insertionSort pairLE

/-- Go `type DStruct struct`. -/
structure DStruct where
  M : ℤ
  B : Dst
  D0 : List (List Pair)
  D1 : List (List Pair)
  keyBest : List (NodeID × Dst)
deriving DecidableEq, Repr

/-- Go NewDStruct(). -/
def newDStruct : DStruct :=
  { M := 1, B := INF, D0 := [], D1 := [[]], keyBest := [] }

/-- Go (d *DStruct) Initialize(M int, B Dist). -/
def DStruct.initMB (dd : DStruct) (M : ℤ) (B : Dst) : DStruct :=
  { dd with M := M, B := B, D0 := [], D1 := [[]], keyBest := [] }

/-- The keyBest staleness gate at the top of Insert:
`if old, ok := d.keyBest[v]; ok && old <= dist { return }`. -/
def kbStale (kb : List (NodeID × Dst)) (v : NodeID) (dist : Dst) : Bool :=
  match alGet? kb v with
  | some old => decide (old ≤ dist)
  | none => false

/-- Go (d *DStruct) Insert(v, dist).  Appends to the tail block of D1 and, when
that block then holds more than M entries, sorts it by d and splits it at the
middle index into two blocks.  When D1 is empty, `d.D1[len(d.D1)-1]` panics:
modelled as `none`. -/
def DStruct.insertD (dd : DStruct) (v : NodeID) (dist : Dst) : Option DStruct :=
  if kbStale dd.keyBest v dist then some dd
  else
    match dd.D1.getLast? with
    | none => none
    | some last =>
      let kb := alSet dd.keyBest v dist
      let grown := last ++ [⟨v, dist⟩]
      if dd.M < (grown.length : ℤ) then
        let arr := sortByD grown
        let mid := arr.length / 2
        some { dd with keyBest := kb,
                       D1 := dd.D1.dropLast ++ [arr.take mid, arr.drop mid] }
      else
        some { dd with keyBest := kb, D1 := dd.D1.dropLast ++ [grown] }

/-- The keyBest refresh inside BatchPrepend:
`old, ok := keyBest[p.v]; if !ok || p.d < old { keyBest[p.v] = p.d }`,
folded over one chunk. -/
def kbRefresh (kb : List (NodeID × Dst)) : List Pair → List (NodeID × Dst)
  | [] => kb
  | p :: rest =>
      kbRefresh
        (match alGet? kb p.v with
         | some old => if p.d < old then alSet kb p.v p.d else kb
         | none => alSet kb p.v p.d) rest

/-- The chunking loop of BatchPrepend: `for i := len(list); i > 0; i -= d.M`.
The loop counter is a Go int; when M ≤ 0 it never reaches 0 and the program
diverges, which the fuel models as `none`. -/
def bpAux (list : List Pair) : ℕ → ℤ → DStruct → Option DStruct
  | 0, _, _ => none
  | fuel + 1, i, dd =>
      if 0 < i then
        let start0 := i - dd.M
        let start := if start0 < 0 then 0 else start0
        let chunk := (list.take i.toNat).drop start.toNat
        bpAux list fuel (i - dd.M)
          { dd with D0 := [chunk] ++ dd.D0, keyBest := kbRefresh dd.keyBest chunk }
      else some dd

/-- Go (d *DStruct) BatchPrepend(list []pair). -/
def DStruct.batchPrepend (dd : DStruct) (list : List Pair) (fuel : ℕ) : Option DStruct :=
  if list.isEmpty then some dd
  else bpAux list fuel (list.length : ℤ) dd

/-- Go (d *DStruct) NonEmpty(): looks only at the first block of D0, then scans
every block of D1. -/
def DStruct.nonEmptyD (dd : DStruct) : Bool :=
  (match dd.D0 with
   | (_ :: _) :: _ => true
   | _ => false) ||
  dd.D1.any (fun block => !block.isEmpty)

/-- The D0 branch of Pull: `for i := n - 1; i >= 0 && len(S) < d.M; i--`,
adding `block[i].v`; the list argument is the block already reversed. -/
def pullAddRev (M : ℤ) : List Pair → NodeSet → NodeSet
  | [], S => S
  | p :: rest, S =>
      if (S.length : ℤ) < M then pullAddRev M rest (nsAdd S p.v) else S

/-- The D1 branch of Pull: `for i := 0; i < len(block) && i < d.M; i++`,
adding `block[i].v` of the sorted block. -/
def pullAddFront (M : ℤ) (block : List Pair) : NodeSet :=
  (block.take M.toNat).foldl (fun S p => nsAdd S p.v) []

/-- Go (d *DStruct) Pull() (Dist, NodeSet, bool); the final component is the
updated structure.  The D1 branch discards the whole leading block even when
only M of its entries were returned. -/
def DStruct.pull (dd : DStruct) : Dst × NodeSet × Bool × DStruct :=
  match dd.D0 with
  | (p :: ps) :: restD0 =>
      (p.d, pullAddRev dd.M (p :: ps).reverse [], true, { dd with D0 := restD0 })
  | _ =>
    match dd.D1 with
    | (q :: qs) :: restD1 =>
        let block := sortByD (q :: qs)
        (block.headI.d, pullAddFront dd.M block, true, { dd with D1 := restD1 })
    | _ => (dd.B, [], false, dd)

/-! ### Claims C4, C7, C9, C10: the block structure in isolation -/

/-- Claim C10: calling Pull on a DStruct in which every block of D0 and D1 is
empty returns the structure's bound B together with an empty vertex set and a
false success flag, and leaves the structure's state unchanged. -/
theorem pull_on_all_empty_returns_bound_and_preserves_state (dd : DStruct)
    (h0 : ∀ b ∈ dd.D0, b = ([] : List Pair))
    (h1 : ∀ b ∈ dd.D1, b = ([] : List Pair)) :
    dd.pull = (dd.B, ([] : NodeSet), false, dd) := by
  obtain ⟨M, B, D0, D1, kb⟩ := dd
  simp only at h0 h1
  cases D0 with
  | nil =>
    cases D1 with
    | nil => rfl
    | cons b1 r1 =>
      have hb1 : b1 = [] := h1 b1 (by simp)
      subst hb1
      rfl
  | cons b0 r0 =>
    have hb0 : b0 = [] := h0 b0 (by simp)
    subst hb0
    cases D1 with
    | nil => rfl
    | cons b1 r1 =>
      have hb1 : b1 = [] := h1 b1 (by simp)
      subst hb1
      rfl

/-- Witness for C10 at a concrete state: the freshly initialized structure has
D0 = [] and D1 = [[]], and Pull returns (100, empty, false) leaving it intact. -/
theorem pull_on_all_empty_witness :
    (newDStruct.initMB 1 ((100 : ℚ) : Dst)).pull
      = (((100 : ℚ) : Dst), ([] : NodeSet), false, newDStruct.initMB 1 ((100 : ℚ) : Dst)) :=
  pull_on_all_empty_returns_bound_and_preserves_state _ (by decide) (by decide)

/-- Claim C4 (counterexample evaluation): starting from Initialize(M = 1,
B = 100), the Insert sequence (1, 5), (2, 6), (3, 0) succeeds, and the three
subsequent Pulls return leading distances 5, 0, 6.  That sequence is not
non-decreasing (the second pull's 0 is below the first pull's 5), contradicting
the claimed block-structure law.  The cause: Insert(3, 0) lands in the tail
block [(2,6)], which sorts and splits to [(3,0)], [(2,6)] and is appended after
the block [(1,5)] already sitting in front of it. -/
theorem pull_leading_distances_not_monotone :
    (((newDStruct.initMB 1 ((100 : ℚ) : Dst)).insertD 1 ((5 : ℚ) : Dst) >>= fun d1 =>
        d1.insertD 2 ((6 : ℚ) : Dst) >>= fun d2 =>
        d2.insertD 3 ((0 : ℚ) : Dst)).map (fun dd =>
          (dd.pull.1, dd.pull.2.2.2.pull.1, dd.pull.2.2.2.pull.2.2.2.pull.1))
      = some (((5 : ℚ) : Dst), ((0 : ℚ) : Dst), ((6 : ℚ) : Dst)))
    ∧ ¬ (((5 : ℚ) : Dst) ≤ ((0 : ℚ) : Dst)) := by
  constructor
  · rfl
  · decide

/-- Claim C9 (counterexample evaluation): Initialize(1, 100) then Insert(1, 5)
leaves D1 = [[(1,5)]]; Pull consumes that block, leaving D1 with no block at
all; the next Insert reads d.D1[len(d.D1)-1] on the empty slice, which panics
(modelled as none).  So the D1 zone does not always retain a block and Insert
can fail on a reachable state. -/
theorem insert_fails_after_pull_consumes_last_block :
    ((((newDStruct.initMB 1 ((100 : ℚ) : Dst)).insertD 1 ((5 : ℚ) : Dst)).map
        (fun dd => dd.pull.2.2.2.D1)) = some ([] : List (List Pair)))
    ∧ ((((newDStruct.initMB 1 ((100 : ℚ) : Dst)).insertD 1 ((5 : ℚ) : Dst)) >>=
        (fun dd => dd.pull.2.2.2.insertD 2 ((3 : ℚ) : Dst))) = none) := by
  constructor
  · rfl
  · rfl

/-- Claim C7 (counterexample evaluation): with M = 1, after Insert(1, 5) the
tail block of D1 holds one entry; Insert(2, 6) grows it to 2 entries, which is
2M, i.e. not more than 2M, so the claim says it is left unsplit — yet the code
splits it: D1 ends up with the two blocks [(1,5)] and [(2,6)]. -/
theorem insert_splits_tail_block_at_2M_entries :
    (((newDStruct.initMB 1 ((100 : ℚ) : Dst)).insertD 1 ((5 : ℚ) : Dst) >>= fun d1 =>
        d1.insertD 2 ((6 : ℚ) : Dst)).map (fun dd => dd.D1)
      = some [[⟨1, ((5 : ℚ) : Dst)⟩], [⟨2, ((6 : ℚ) : Dst)⟩]])
    ∧ (2 : ℤ) ≤ 2 * 1 := by
  constructor
  · rfl
  · decide

/-! ### BaseCase (example_test.go, Algorithm 2): bounded Dijkstra with an
inline binary heap -/

/-- The largest finite float64, math.MaxFloat64 = (2^53 − 1)·2^971. -/
def maxFloat64 : ℚ := 2 ^ 1024 - 2 ^ 971

/-- Read h[i] of the heap slice; out-of-range reads never happen in the source
and return the zero item here. -/
def hGet (h : List Pair) (i : ℕ) : Pair := h.getD i ⟨0, 0⟩

/-- Swap h[i] and h[j] of the heap slice. -/
def hSwap (h : List Pair) (i j : ℕ) : List Pair :=
  (h.set i (hGet h j)).set j (hGet h i)

/-- The sift-up loop of the inline push:
`for i > 0 { p := (i-1)/2; if h[p].d <= h[i].d break; swap; i = p }`.
The parent index is strictly smaller than i, so fuel i+1 always suffices. -/
def siftUpF : ℕ → List Pair → ℕ → List Pair
  | 0, h, _ => h
  | fuel + 1, h, i =>
      if i = 0 then h
      else if (hGet h ((i - 1) / 2)).d ≤ (hGet h i).d then h
      else siftUpF fuel (hSwap h ((i - 1) / 2) i) ((i - 1) / 2)

/-- Go push: append then sift up from the last index. -/
def hpush (h : List Pair) (x : Pair) : List Pair :=
  siftUpF (h.length + 1) (h ++ [x]) h.length

/-- The first candidate of the sift-down comparison: the left child when it is
in range and strictly smaller, else the parent
(`small := i; if l < len(h) && h[l].d < h[small].d { small = l }`). -/
def smallest1 (h : List Pair) (i : ℕ) : ℕ :=
  if 2 * i + 1 < h.length ∧ (hGet h (2 * i + 1)).d < (hGet h i).d then 2 * i + 1 else i

/-- The final sift-down target: the right child when it is in range and
strictly smaller than the first candidate
(`if r < len(h) && h[r].d < h[small].d { small = r }`). -/
def smallestIdx (h : List Pair) (i : ℕ) : ℕ :=
  if 2 * i + 2 < h.length ∧ (hGet h (2 * i + 2)).d < (hGet h (smallest1 h i)).d then 2 * i + 2
  else smallest1 h i

/-- The sift-down loop of the inline pop.  The index strictly increases, so
fuel = length suffices. -/
def siftDownF : ℕ → List Pair → ℕ → List Pair
  | 0, h, _ => h
  | fuel + 1, h, i =>
      if smallestIdx h i = i then h
      else siftDownF fuel (hSwap h i (smallestIdx h i)) (smallestIdx h i)

/-- Go pop: return h[0]; move the last element to the root, shrink, sift down. -/
def hpop (h : List Pair) : Option (Pair × List Pair) :=
  match h with
  | [] => none
  | it :: _ =>
      some (it, siftDownF ((h.set 0 (hGet h (h.length - 1))).dropLast).length
        ((h.set 0 (hGet h (h.length - 1))).dropLast) 0)

/-- The edge-relaxation loop inside BaseCase:
`newd := du + e.W; if newd < dhat[v] && newd < B { dhat[v] = newd; push(v, newd) }`. -/
def bcRelax (B : Dst) (du : Dst) : List Edge → List Pair → DMap → List Pair × DMap
  | [], h, dhat => (h, dhat)
  | e :: rest, h, dhat =>
      if du + e.w < mapGet dhat e.dst ∧ du + e.w < B then
        bcRelax B du rest (hpush h ⟨e.dst, du + e.w⟩) (mapSet dhat e.dst (du + e.w))
      else
        bcRelax B du rest h dhat

/-- The main loop of BaseCase.  Exits when the heap is empty, the popped key
reaches B, or the settled set already exceeds k; skips already-visited pops;
otherwise settles the popped vertex, lowers Bprime, and relaxes its out-edges.
The fuel models the unbounded `for` loop. -/
def bcLoop (B : Dst) (k : ℤ) (g : Graph) :
    ℕ → List Pair → DMap → NodeSet → NodeSet → Dst → Option (DMap × NodeSet × Dst)
  | 0, _, _, _, _, _ => none
  | fuel + 1, h, dhat, U0, visited, Bprime =>
      match hpop h with
      | none => some (dhat, U0, Bprime)
      | some (it, h') =>
          if B ≤ it.d ∨ k < (U0.length : ℤ) then some (dhat, U0, Bprime)
          else if it.v ∈ visited then bcLoop B k g fuel h' dhat U0 visited Bprime
          else
            bcLoop B k g fuel
              (bcRelax B it.d (g.outEdges it.v) h' dhat).1
              (bcRelax B it.d (g.outEdges it.v) h' dhat).2
              (nsAdd U0 it.v) (nsAdd visited it.v)
              (if it.d < Bprime then it.d else Bprime)

/-- The max fold `Bmax := Dist(-math.MaxFloat64); if dhat[v] > Bmax ...`
over the settled set. -/
def bcMax (dhat : DMap) (U0 : NodeSet) : Dst :=
  U0.foldl (fun acc v => if acc < mapGet dhat v then mapGet dhat v else acc)
    (((- maxFloat64 : ℚ) : Dst))

/-- Go BaseCase(B, S, k, g, dhat) (example_test.go, Algorithm 2).  Returns the
bound, the returned set U, and the final distance map (mutated in place in Go). -/
def baseCase (fuel : ℕ) (B : Dst) (S : NodeSet) (k : ℤ) (g : Graph) (dhat : DMap) :
    Option (Dst × NodeSet × DMap) :=
  match bcLoop B k g fuel (S.foldl (fun h x => hpush h ⟨x, mapGet dhat x⟩) []) dhat [] [] B with
  | none => none
  | some (dhat', U0, _) =>
      if (U0.length : ℤ) ≤ k then some (B, U0, dhat')
      else
        some (bcMax dhat' U0,
          U0.filter (fun v => decide (mapGet dhat' v < bcMax dhat' U0)), dhat')

/-! ### FindPivots (example_test.go, Algorithm 1) -/

/-- The inner edge loop of a FindPivots relaxation round, threading
(dhat, W, next):
`if dhat[u]+w < dhat[v] { dhat[v] = dhat[u]+w; if dhat[v] < B { next.Add(v) };
W.Add(v) }`. -/
def fpRelaxEdges (B : Dst) (u : NodeID) :
    List Edge → DMap → NodeSet → NodeSet → DMap × NodeSet × NodeSet
  | [], dhat, W, next => (dhat, W, next)
  | e :: rest, dhat, W, next =>
      if mapGet dhat u + e.w < mapGet dhat e.dst then
        fpRelaxEdges B u rest (mapSet dhat e.dst (mapGet dhat u + e.w)) (nsAdd W e.dst)
          (if mapGet (mapSet dhat e.dst (mapGet dhat u + e.w)) e.dst < B then
            nsAdd next e.dst else next)
      else
        fpRelaxEdges B u rest dhat W next

/-- One full relaxation round of FindPivots over the current frontier. -/
def fpRelaxRound (B : Dst) (g : Graph) :
    List NodeID → DMap → NodeSet → NodeSet → DMap × NodeSet × NodeSet
  | [], dhat, W, next => (dhat, W, next)
  | u :: us, dhat, W, next =>
      let r := fpRelaxEdges B u (g.outEdges u) dhat W next
      fpRelaxRound B g us r.1 r.2.1 r.2.2

/-- The k relaxation rounds of FindPivots with the early-exit check
`if W.Len() > k*len(S)` after each round; the Bool records whether the early
exit (returning P = S) was taken. -/
def fpRounds (B : Dst) (g : Graph) (k : ℤ) (S : NodeSet) :
    ℕ → NodeSet → DMap → NodeSet → DMap × NodeSet × Bool
  | 0, _, dhat, W => (dhat, W, false)
  | n + 1, curr, dhat, W =>
      if k * (S.length : ℤ) < ((fpRelaxRound B g curr dhat W []).2.1.length : ℤ) then
        ((fpRelaxRound B g curr dhat W []).1, (fpRelaxRound B g curr dhat W []).2.1, true)
      else
        fpRounds B g k S n (fpRelaxRound B g curr dhat W []).2.2
          (fpRelaxRound B g curr dhat W []).1 (fpRelaxRound B g curr dhat W []).2.1

/-- The edge loop of the tight-forest construction: assign `parent[v] = u` and
append v to `children[u]` on the first tight edge into an orphan v of W. -/
def fpForestEdges (dhat : DMap) (W : NodeSet) (u : NodeID) :
    List Edge → List (NodeID × NodeID) → List (NodeID × List NodeID) →
    List (NodeID × NodeID) × List (NodeID × List NodeID)
  | [], parent, children => (parent, children)
  | e :: rest, parent, children =>
      if e.dst ∈ W ∧ mapGet dhat e.dst = mapGet dhat u + e.w ∧
          (alGet? parent e.dst).isNone then
        fpForestEdges dhat W u rest (alSet parent e.dst u)
          (alSet children u ((alGet? children u).getD [] ++ [e.dst]))
      else
        fpForestEdges dhat W u rest parent children

/-- The tight-forest construction over every vertex of W. -/
def fpForestNodes (g : Graph) (dhat : DMap) (W : NodeSet) :
    List NodeID → List (NodeID × NodeID) → List (NodeID × List NodeID) →
    List (NodeID × NodeID) × List (NodeID × List NodeID)
  | [], parent, children => (parent, children)
  | u :: us, parent, children =>
      let r := fpForestEdges dhat W u (g.outEdges u) parent children
      fpForestNodes g dhat W us r.1 r.2

/-- The child-summing fold of the memoized dfs, parameterized by the
recursive call (threading the shared visited set and treeSize map). -/
def dfsKids (rec : NodeID → NodeSet → List (NodeID × ℤ) →
      Option (ℤ × NodeSet × List (NodeID × ℤ))) :
    List NodeID → ℤ → NodeSet → List (NodeID × ℤ) →
    Option (ℤ × NodeSet × List (NodeID × ℤ))
  | [], acc, visited, treeSize => some (acc, visited, treeSize)
  | c :: cs, acc, visited, treeSize =>
      match rec c visited treeSize with
      | none => none
      | some (s, visited', treeSize') => dfsKids rec cs (acc + s) visited' treeSize'

/-- The memoized dfs of FindPivots: a visited node returns its recorded
treeSize (zero value 0 when in progress); otherwise size = 1 plus the sizes of
its children, recorded in treeSize.  Go recursion depth is unbounded: fuel. -/
def dfsF (children : List (NodeID × List NodeID)) :
    ℕ → NodeID → NodeSet → List (NodeID × ℤ) → Option (ℤ × NodeSet × List (NodeID × ℤ))
  | 0, _, _, _ => none
  | fuel + 1, u, visited, treeSize =>
      if u ∈ visited then some ((alGet? treeSize u).getD 0, visited, treeSize)
      else
        match dfsKids (dfsF children fuel) ((alGet? children u).getD []) 1
            (nsAdd visited u) treeSize with
        | none => none
        | some r => some (r.1, r.2.1, alSet r.2.2 u r.1)

/-- The root chase `for { if p, ok := parent[root]; ok { root = p } else break }`:
on a parent cycle the Go loop never terminates, which the fuel models as none. -/
def chaseRoot (parent : List (NodeID × NodeID)) : ℕ → NodeID → Option NodeID
  | 0, _ => none
  | fuel + 1, v =>
      match alGet? parent v with
      | some p => chaseRoot parent fuel p
      | none => some v

/-- The dfs driver `for v := range W { root := chase(v); dfs(root) }` with the
shared visited/treeSize state. -/
def fpDfsAll (children : List (NodeID × List NodeID)) (parent : List (NodeID × NodeID))
    (fuel : ℕ) : List NodeID → NodeSet → List (NodeID × ℤ) →
    Option (NodeSet × List (NodeID × ℤ))
  | [], visited, treeSize => some (visited, treeSize)
  | v :: vs, visited, treeSize =>
      match chaseRoot parent fuel v with
      | none => none
      | some root =>
          match dfsF children fuel root visited treeSize with
          | none => none
          | some (_, visited', treeSize') =>
              fpDfsAll children parent fuel vs visited' treeSize'

/-- Go FindPivots(B, S, k, g, dhat) (example_test.go, Algorithm 1), returning
(P, W) plus the mutated distance map. -/
def findPivots (fuel : ℕ) (B : Dst) (S : NodeSet) (k : ℤ) (g : Graph) (dhat : DMap) :
    Option (NodeSet × NodeSet × DMap) :=
  match fpRounds B g k S k.toNat (nsAddAll [] S) dhat (nsAddAll [] S) with
  | (dhat', W, true) => some (nsAddAll [] S, W, dhat')
  | (dhat', W, false) =>
      match fpDfsAll (fpForestNodes g dhat' W W [] []).2
          (fpForestNodes g dhat' W W [] []).1 fuel W [] [] with
      | none => none
      | some (_, treeSize) =>
          some (W.filter (fun v =>
              decide (((alGet? (fpForestNodes g dhat' W W [] []).1 v).isNone ∧
                k ≤ (alGet? treeSize v).getD 0))),
            W, dhat')

/-! ### The recursive paper BMSSP (example_test.go) -/

/-- Insert every pivot x of P at key dhat[x] into the fresh structure. -/
def bmInsertAll (dhat : DMap) : List NodeID → DStruct → Option DStruct
  | [], D => some D
  | x :: xs, D =>
      match D.insertD x (mapGet dhat x) with
      | none => none
      | some D' => bmInsertAll dhat xs D'

/-- The pivot minimum `minp := INF; for x := range P { if dhat[x] < minp ... }`. -/
def bmMinP (dhat : DMap) (P : List NodeID) : Dst :=
  P.foldl (fun minp x => if mapGet dhat x < minp then mapGet dhat x else minp) INF

/-- The relaxation over the out-edges of one settled u in the BMSSP loop:
`newd := dhat[u] + w; if newd <= dhat[v] { dhat[v] = newd; classify into D or K }`.
A failing Insert (empty D1) is propagated as none. -/
def bmRelaxEdges (B Bi Bp : Dst) (u : NodeID) :
    List Edge → DMap → DStruct → List Pair → Option (DMap × DStruct × List Pair)
  | [], dhat, D, K => some (dhat, D, K)
  | e :: rest, dhat, D, K =>
      if mapGet dhat u + e.w ≤ mapGet dhat e.dst then
        if Bi ≤ mapGet dhat u + e.w ∧ mapGet dhat u + e.w < B then
          match D.insertD e.dst (mapGet dhat u + e.w) with
          | none => none
          | some D' =>
              bmRelaxEdges B Bi Bp u rest
                (mapSet dhat e.dst (mapGet dhat u + e.w)) D' K
        else if Bp ≤ mapGet dhat u + e.w ∧ mapGet dhat u + e.w < Bi then
          bmRelaxEdges B Bi Bp u rest (mapSet dhat e.dst (mapGet dhat u + e.w)) D
            (K ++ [⟨e.dst, mapGet dhat u + e.w⟩])
        else
          bmRelaxEdges B Bi Bp u rest (mapSet dhat e.dst (mapGet dhat u + e.w)) D K
      else
        bmRelaxEdges B Bi Bp u rest dhat D K

/-- The relaxation over every u of the recursive result Ui. -/
def bmRelaxAll (B Bi Bp : Dst) (g : Graph) :
    List NodeID → DMap → DStruct → List Pair → Option (DMap × DStruct × List Pair)
  | [], dhat, D, K => some (dhat, D, K)
  | u :: us, dhat, D, K =>
      match bmRelaxEdges B Bi Bp u (g.outEdges u) dhat D K with
      | none => none
      | some (dhat', D', K') => bmRelaxAll B Bi Bp g us dhat' D' K'

/-- The Si sweep `for x := range Si { if dhat[x] >= Bp && dhat[x] < Bi ... }`. -/
def bmCollectSi (Bp Bi : Dst) (dhat : DMap) : List NodeID → List Pair → List Pair
  | [], K => K
  | x :: xs, K =>
      if Bp ≤ mapGet dhat x ∧ mapGet dhat x < Bi then
        bmCollectSi Bp Bi dhat xs (K ++ [⟨x, mapGet dhat x⟩])
      else
        bmCollectSi Bp Bi dhat xs K

/-- The W completion `for x := range W { if dhat[x] < Bprime { U.Add(x) } }`. -/
def wAddLoop (dhat : DMap) (Bp : Dst) : NodeSet → List NodeID → NodeSet
  | U, [] => U
  | U, x :: xs => wAddLoop dhat Bp (if mapGet dhat x < Bp then nsAdd U x else U) xs

/-- The pull/recurse/relax loop of BMSSP, parameterized by the level-(l−1)
solver; state (D, U, dhat, B0p), guarded by `U.Len() < limit && D.NonEmpty()`. -/
def bmsspLoop (rec : Dst → NodeSet → DMap → Option (Dst × NodeSet × DMap))
    (B : Dst) (g : Graph) (limit : ℤ) (bpFuel : ℕ) :
    ℕ → DStruct → NodeSet → DMap → Dst → Option (DStruct × NodeSet × DMap × Dst)
  | 0, _, _, _, _ => none
  | fuel + 1, D, U, dhat, B0p =>
      if (U.length : ℤ) < limit ∧ D.nonEmptyD then
        match rec D.pull.1 D.pull.2.1 dhat with
        | none => none
        | some (Bp, Ui, dhat1) =>
            match bmRelaxAll B D.pull.1 Bp g Ui dhat1 D.pull.2.2.2 [] with
            | none => none
            | some (dhat2, D2, K1) =>
                match (if 0 < (bmCollectSi Bp D.pull.1 dhat2 D.pull.2.1 K1).length then
                    D2.batchPrepend (bmCollectSi Bp D.pull.1 dhat2 D.pull.2.1 K1) bpFuel
                  else some D2) with
                | none => none
                | some D3 =>
                    bmsspLoop rec B g limit bpFuel fuel D3 (nsAddAll U Ui) dhat2
                      (if Bp < B0p then Bp else B0p)
      else some (D, U, dhat, B0p)

/-- Go BMSSP(l, B, S, k, t, g, dhat) (example_test.go), the exact paper
algorithm, with the mutated distance map returned alongside (B′, U).
The fuel bounds the recursion depth and every inner loop; a level with l < 0
never reaches l == 0 and is a divergence (fuel runs out).  A negative shift
count in `1 << ((l-1)*t)` panics in Go: modelled as none. -/
def bmssp (g : Graph) (k t : ℤ) : ℕ → ℤ → Dst → NodeSet → DMap →
    Option (Dst × NodeSet × DMap)
  | 0, _, _, _, _ => none
  | fuel + 1, l, B, S, dhat =>
      if l = 0 then baseCase fuel B S k g dhat
      else
        match findPivots fuel B S k g dhat with
        | none => none
        | some (P, W, dhat1) =>
            if (l - 1) * t < 0 then none
            else
              match bmInsertAll dhat1 P
                  (newDStruct.initMB ((2 : ℤ) ^ ((l - 1) * t).toNat) B) with
              | none => none
              | some D1 =>
                  match bmsspLoop (fun Bi Si dh => bmssp g k t fuel (l - 1) Bi Si dh)
                      B g (k ^ (2 * l).toNat) fuel fuel D1 [] dhat1
                      (if 0 < P.length then bmMinP dhat1 P else B) with
                  | none => none
                  | some (_, U, dhat2, B0p') =>
                      some (if B < B0p' then B else B0p',
                        wAddLoop dhat2 (if B < B0p' then B else B0p') U W, dhat2)

/-! ### Basic lemmas about the map and set models -/

theorem alGet?_alSet {β : Type} (m : List (NodeID × β)) (v w : NodeID) (b : β) :
    alGet? (alSet m v b) w = if v = w then some b else alGet? m w := by
  induction m with
  | nil =>
    by_cases h : v = w <;> simp [alGet?, alSet, h]
  | cons kv rest ih =>
    obtain ⟨k, c⟩ := kv
    by_cases hk : k = v
    · subst hk
      by_cases h : k = w <;> simp [alGet?, alSet, h]
    · by_cases h : v = w
      · subst h
        simp [alGet?, alSet, hk, ih]
      · by_cases hkw : k = w
        · subst hkw
          simp [alGet?, alSet, hk, h]
        · simp [alGet?, alSet, hk, hkw, ih, h]

theorem mapGet_mapSet (m : DMap) (v w : NodeID) (d : Dst) :
    mapGet (mapSet m v d) w = if v = w then d else mapGet m w := by
  by_cases h : v = w <;> simp [mapGet, mapSet, alGet?_alSet, h]

theorem mem_nsAdd {s : NodeSet} {v a : NodeID} : a ∈ nsAdd s v ↔ a ∈ s ∨ a = v := by
  by_cases h : v ∈ s
  · constructor
    · intro ha
      exact Or.inl (by simpa [nsAdd, h] using ha)
    · rintro (ha | rfl)
      · simp [nsAdd, h, ha]
      · simp [nsAdd, h]
  · simp [nsAdd, h]

theorem nsAdd_length (s : NodeSet) (v : NodeID) :
    (nsAdd s v).length = if v ∈ s then s.length else s.length + 1 := by
  by_cases h : v ∈ s <;> simp [nsAdd, h]

theorem nsAdd_nodup {s : NodeSet} (hs : s.Nodup) (v : NodeID) : (nsAdd s v).Nodup := by
  by_cases h : v ∈ s
  · simpa [nsAdd, h]
  · simp [nsAdd, h, List.nodup_append, hs]

theorem subset_nsAdd (s : NodeSet) (v : NodeID) : s ⊆ nsAdd s v := by
  intro a ha
  exact mem_nsAdd.mpr (Or.inl ha)

theorem mem_nsAddAll {l : List NodeID} : ∀ {s : NodeSet} {a : NodeID},
    a ∈ nsAddAll s l ↔ a ∈ s ∨ a ∈ l := by
  induction l with
  | nil => simp [nsAddAll]
  | cons x xs ih =>
    intro s a
    show a ∈ nsAddAll (nsAdd s x) xs ↔ _
    rw [ih]
    simp [mem_nsAdd]
    tauto

theorem nsAddAll_nodup {l : List NodeID} : ∀ {s : NodeSet}, s.Nodup →
    (nsAddAll s l).Nodup := by
  induction l with
  | nil => intro s hs; exact hs
  | cons x xs ih =>
    intro s hs
    exact ih (nsAdd_nodup hs x)

theorem nsAddAll_of_disjoint {l : List NodeID} : ∀ {s : NodeSet}, l.Nodup →
    (∀ a ∈ l, a ∉ s) → nsAddAll s l = s ++ l := by
  induction l with
  | nil => intro s _ _; simp [nsAddAll]
  | cons x xs ih =>
    intro s hnd hdisj
    have hx : x ∉ s := hdisj x (by simp)
    have : nsAddAll s (x :: xs) = nsAddAll (s ++ [x]) xs := by
      simp [nsAddAll, nsAdd, hx]
    rw [this, ih (List.Nodup.of_cons hnd)]
    · simp
    · intro a ha
      simp only [List.mem_append, List.mem_singleton]
      rintro (has | rfl)
      · exact hdisj a (by simp [ha]) has
      · exact (List.nodup_cons.mp hnd).1 ha

theorem nsAddAll_nil_eq {S : NodeSet} (hS : S.Nodup) : nsAddAll [] S = S := by
  simpa using nsAddAll_of_disjoint hS (by simp)

theorem nsAddAll_length_le (l : List NodeID) :
    ∀ s : NodeSet, (nsAddAll s l).length ≤ s.length + l.length := by
  induction l with
  | nil => simp [nsAddAll]
  | cons x xs ih =>
    intro s
    have h1 := ih (nsAdd s x)
    have h2 : (nsAdd s x).length ≤ s.length + 1 := by
      rw [nsAdd_length]
      split <;> omega
    calc (nsAddAll s (x :: xs)).length
        = (nsAddAll (nsAdd s x) xs).length := rfl
      _ ≤ (nsAdd s x).length + xs.length := h1
      _ ≤ s.length + (x :: xs).length := by simp; omega

/-- The general max-fold specification behind bcMax. -/
theorem foldMax_spec (f : NodeID → Dst) (l : List NodeID) :
    ∀ init : Dst,
      init ≤ l.foldl (fun acc v => if acc < f v then f v else acc) init ∧
      (∀ v ∈ l, f v ≤ l.foldl (fun acc v => if acc < f v then f v else acc) init) ∧
      (l.foldl (fun acc v => if acc < f v then f v else acc) init = init ∨
        ∃ v ∈ l, f v = l.foldl (fun acc v => if acc < f v then f v else acc) init) := by
  induction l with
  | nil => intro init; simp
  | cons x xs ih =>
    intro init
    have step : (x :: xs).foldl (fun acc v => if acc < f v then f v else acc) init
        = xs.foldl (fun acc v => if acc < f v then f v else acc)
            (if init < f x then f x else init) := rfl
    obtain ⟨h1, h2, h3⟩ := ih (if init < f x then f x else init)
    refine ⟨?_, ?_, ?_⟩
    · rw [step]
      refine le_trans ?_ h1
      split <;> simp_all [le_of_lt]
    · intro v hv
      rw [step]
      rcases List.mem_cons.mp hv with rfl | hv'
      · refine le_trans ?_ h1
        split
        · exact le_refl _
        · exact le_of_not_lt (by assumption)
      · exact h2 v hv'
    · rw [step]
      rcases h3 with heq | ⟨v, hv, hfv⟩
      · by_cases hx : init < f x
        · right
          exact ⟨x, by simp, by rw [heq, if_pos hx]⟩
        · left
          rw [heq, if_neg hx]
      · right
        exact ⟨v, by simp [hv], hfv⟩

/-! ### Non-negativity invariants for the BaseCase heap and distance map -/

theorem alGet?_mem {β : Type} {m : List (NodeID × β)} {v : NodeID} {b : β}
    (h : alGet? m v = some b) : (v, b) ∈ m := by
  induction m with
  | nil => simp [alGet?] at h
  | cons kv rest ih =>
    obtain ⟨k, c⟩ := kv
    by_cases hk : k = v
    · subst hk
      simp [alGet?] at h
      simp [h]
    · simp [alGet?, hk] at h
      exact List.mem_cons_of_mem _ (ih h)

/-- Non-negative edge weights, phrased over the adjacency representation. -/
def WNN (g : Graph) : Prop := ∀ kv ∈ g.adj, ∀ e ∈ kv.2, (0 : Dst) ≤ e.w

/-- Non-negative stored distances (absent keys read as 0, also non-negative). -/
def DNN (m : DMap) : Prop := ∀ kv ∈ m, (0 : Dst) ≤ kv.2

/-- Non-negative heap keys. -/
def HNN (h : List Pair) : Prop := ∀ p ∈ h, (0 : Dst) ≤ p.d

instance (g : Graph) : Decidable (WNN g) :=
  inferInstanceAs (Decidable (∀ kv ∈ g.adj, ∀ e ∈ kv.2, (0 : Dst) ≤ e.w))

instance (m : DMap) : Decidable (DNN m) :=
  inferInstanceAs (Decidable (∀ kv ∈ m, (0 : Dst) ≤ kv.2))

theorem WNN.outEdges {g : Graph} (hg : WNN g) (u : NodeID) :
    ∀ e ∈ g.outEdges u, (0 : Dst) ≤ e.w := by
  intro e he
  unfold Graph.outEdges at he
  cases hal : alGet? g.adj u with
  | none => rw [hal] at he; simp at he
  | some es =>
    rw [hal] at he
    exact hg (u, es) (alGet?_mem hal) e he

theorem DNN.get {m : DMap} (hm : DNN m) (v : NodeID) : (0 : Dst) ≤ mapGet m v := by
  unfold mapGet
  cases hal : alGet? m v with
  | none => simp
  | some d => exact hm (v, d) (alGet?_mem hal)

theorem DNN.set {m : DMap} (hm : DNN m) {v : NodeID} {d : Dst} (hd : (0 : Dst) ≤ d) :
    DNN (mapSet m v d) := by
  unfold mapSet
  intro kv hkv
  induction m with
  | nil =>
    simp [alSet] at hkv
    simpa [hkv]
  | cons kc rest ih =>
    obtain ⟨k, c⟩ := kc
    by_cases hk : k = v
    · subst hk
      simp [alSet] at hkv
      rcases hkv with rfl | hkv
      · exact hd
      · exact hm kv (List.mem_cons_of_mem _ hkv)
    · simp [alSet, hk] at hkv
      rcases hkv with rfl | hkv
      · exact hm (k, c) (by simp)
      · exact ih (fun kv h => hm kv (List.mem_cons_of_mem _ h)) hkv

theorem hGet_mem_or (h : List Pair) (n : ℕ) :
    hGet h n ∈ h ∨ hGet h n = (⟨0, 0⟩ : Pair) := by
  unfold hGet
  rcases Nat.lt_or_ge n h.length with hlt | hge
  · left
    rw [List.getD_eq_getElem?_getD, List.getElem?_eq_getElem hlt]
    exact List.getElem_mem _
  · right
    rw [List.getD_eq_getElem?_getD, List.getElem?_eq_none hge]
    rfl

theorem hnnHGet {h : List Pair} (hh : HNN h) (n : ℕ) : (0 : Dst) ≤ (hGet h n).d := by
  rcases hGet_mem_or h n with hm | he
  · exact hh _ hm
  · rw [he]

theorem hnnSet {h : List Pair} (hh : HNN h) {i : ℕ} {p : Pair} (hp : (0 : Dst) ≤ p.d) :
    HNN (h.set i p) := by
  intro x hx
  rcases List.mem_or_eq_of_mem_set hx with hm | rfl
  · exact hh x hm
  · exact hp

theorem hnnSwap {h : List Pair} (hh : HNN h) (i j : ℕ) : HNN (hSwap h i j) :=
  hnnSet (hnnSet hh (hnnHGet hh j)) (hnnHGet hh i)

theorem hnnSiftUp {fuel : ℕ} : ∀ {h : List Pair} {i : ℕ}, HNN h → HNN (siftUpF fuel h i) := by
  induction fuel with
  | zero => intro h i hh; exact hh
  | succ fuel ih =>
    intro h i hh
    unfold siftUpF
    split
    · exact hh
    · split
      · exact hh
      · exact ih (hnnSwap hh _ _)

theorem hnnSiftDown {fuel : ℕ} : ∀ {h : List Pair} {i : ℕ}, HNN h → HNN (siftDownF fuel h i) := by
  induction fuel with
  | zero => intro h i hh; exact hh
  | succ fuel ih =>
    intro h i hh
    unfold siftDownF
    split
    · exact hh
    · exact ih (hnnSwap hh _ _)

theorem hnnPush {h : List Pair} (hh : HNN h) {x : Pair} (hx : (0 : Dst) ≤ x.d) :
    HNN (hpush h x) := by
  unfold hpush
  refine hnnSiftUp ?_
  intro p hp
  rcases List.mem_append.mp hp with hm | hm
  · exact hh p hm
  · rw [List.mem_singleton.mp hm]
    exact hx

theorem hnnPop {h : List Pair} {it : Pair} {h' : List Pair}
    (hres : hpop h = some (it, h')) (hh : HNN h) : (0 : Dst) ≤ it.d ∧ HNN h' := by
  unfold hpop at hres
  cases h with
  | nil => simp at hres
  | cons q rest =>
    simp only [Option.some.injEq, Prod.mk.injEq] at hres
    obtain ⟨rfl, rfl⟩ := hres
    constructor
    · exact hh q (by simp)
    · refine hnnSiftDown ?_
      intro p hp
      have hsub := List.dropLast_sublist
        ((q :: rest).set 0 (hGet (q :: rest) ((q :: rest).length - 1)))
      have hp' := hsub.mem hp
      rcases List.mem_or_eq_of_mem_set hp' with hm | heq
      · exact hh p hm
      · rw [heq]
        exact hnnHGet hh _

theorem bcRelax_NN (B : Dst) {du : Dst} (hdu : (0 : Dst) ≤ du) :
    ∀ {edges : List Edge} {h : List Pair} {dhat : DMap},
      (∀ e ∈ edges, (0 : Dst) ≤ e.w) → HNN h → DNN dhat →
      HNN (bcRelax B du edges h dhat).1 ∧ DNN (bcRelax B du edges h dhat).2 := by
  intro edges
  induction edges with
  | nil => intro h dhat _ hh hd; exact ⟨hh, hd⟩
  | cons e rest ih =>
    intro h dhat he hh hd
    have hew : (0 : Dst) ≤ e.w := he e (by simp)
    have hrest : ∀ e' ∈ rest, (0 : Dst) ≤ e'.w := fun e' h' => he e' (by simp [h'])
    unfold bcRelax
    split
    · exact ih hrest (hnnPush hh (add_nonneg hdu hew)) (hd.set (add_nonneg hdu hew))
    · exact ih hrest hh hd

/-- The joint invariant of the BaseCase loop: non-negative distances survive,
and the settled set never exceeds k+1 vertices (the break guard fires before a
(k+2)-th vertex can settle). -/
theorem bcLoop_inv {B : Dst} {k : ℤ} {g : Graph} (hg : WNN g) :
    ∀ {fuel : ℕ} {h : List Pair} {dhat : DMap} {U0 visited : NodeSet} {Bp : Dst}
      {dh : DMap} {U : NodeSet} {Bp' : Dst},
      bcLoop B k g fuel h dhat U0 visited Bp = some (dh, U, Bp') →
      HNN h → DNN dhat → (U0.length : ℤ) ≤ k + 1 →
      DNN dh ∧ (U.length : ℤ) ≤ k + 1 := by
  intro fuel
  induction fuel with
  | zero => intro h dhat U0 visited Bp dh U Bp' hres; simp [bcLoop] at hres
  | succ fuel ih =>
    intro h dhat U0 visited Bp dh U Bp' hres hh hd hU0
    unfold bcLoop at hres
    cases hpopeq : hpop h with
    | none =>
      rw [hpopeq] at hres
      simp only [Option.some.injEq, Prod.mk.injEq] at hres
      obtain ⟨rfl, rfl, rfl⟩ := hres
      exact ⟨hd, hU0⟩
    | some pr =>
      obtain ⟨it, h'⟩ := pr
      rw [hpopeq] at hres
      simp only at hres
      obtain ⟨hit, hh'⟩ := hnnPop hpopeq hh
      by_cases hbrk : B ≤ it.d ∨ k < (U0.length : ℤ)
      · rw [if_pos hbrk] at hres
        simp only [Option.some.injEq, Prod.mk.injEq] at hres
        obtain ⟨rfl, rfl, rfl⟩ := hres
        exact ⟨hd, hU0⟩
      · rw [if_neg hbrk] at hres
        push_neg at hbrk
        by_cases hvis : it.v ∈ visited
        · rw [if_pos hvis] at hres
          exact ih hres hh' hd hU0
        · rw [if_neg hvis] at hres
          have hrel := bcRelax_NN B hit (hg.outEdges it.v) hh' hd
          refine ih hres hrel.1 hrel.2 ?_
          rw [nsAdd_length]
          split
          · omega
          · push_cast
            omega

/-- The initial heap built from the sources carries non-negative keys when the
distance map does. -/
theorem bcInitHeap_NN {dhat : DMap} (hd : DNN dhat) (S : NodeSet) :
    HNN (S.foldl (fun h x => hpush h ⟨x, mapGet dhat x⟩) []) := by
  suffices hgen : ∀ (l : List NodeID) (h0 : List Pair), HNN h0 →
      HNN (l.foldl (fun h x => hpush h ⟨x, mapGet dhat x⟩) h0) by
    exact hgen S [] (by intro p hp; simp at hp)
  intro l
  induction l with
  | nil => intro h0 hh0; exact hh0
  | cons x xs ih =>
    intro h0 hh0
    exact ih _ (hnnPush hh0 (hd.get x))

/-- maxFloat64 is positive, so a non-negative distance exceeds its negation. -/
theorem neg_maxFloat64_lt_zero : (((- maxFloat64 : ℚ)) : Dst) < (0 : Dst) := by
  rw [show ((0 : Dst) = ((0 : ℚ) : Dst)) from rfl, WithTop.coe_lt_coe]
  rw [neg_lt, neg_zero]
  norm_num [maxFloat64]

/-- The settled-set bound of BaseCase: at most k vertices are ever returned
(first branch by its guard; second branch drops the maximal settled vertex). -/
theorem baseCase_count {fuel : ℕ} {B : Dst} {S : NodeSet} {k : ℤ} {g : Graph}
    {dhat : DMap} {B' : Dst} {U : NodeSet} {dh' : DMap}
    (hk : 0 ≤ k) (hg : WNN g) (hd : DNN dhat)
    (hres : baseCase fuel B S k g dhat = some (B', U, dh')) :
    (U.length : ℤ) ≤ k := by
  unfold baseCase at hres
  cases hloop : bcLoop B k g fuel
      (S.foldl (fun h x => hpush h ⟨x, mapGet dhat x⟩) []) dhat [] [] B with
  | none => rw [hloop] at hres; simp at hres
  | some r =>
    obtain ⟨dh1, U0, Bp1⟩ := r
    rw [hloop] at hres
    simp only at hres
    obtain ⟨hdh1, hU0⟩ := bcLoop_inv hg hloop (bcInitHeap_NN hd S) hd
      (by simp; omega)
    by_cases hle : (U0.length : ℤ) ≤ k
    · rw [if_pos hle] at hres
      simp only [Option.some.injEq, Prod.mk.injEq] at hres
      obtain ⟨rfl, rfl, rfl⟩ := hres
      exact hle
    · rw [if_neg hle] at hres
      simp only [Option.some.injEq, Prod.mk.injEq] at hres
      obtain ⟨rfl, rfl, rfl⟩ := hres
      push_neg at hle
      have hU0ne : U0 ≠ [] := by
        intro hnil
        rw [hnil] at hle
        simp at hle
        omega
      obtain ⟨v0, hv0, hfv0⟩ :
          ∃ v ∈ U0, mapGet dh1 v = bcMax dh1 U0 := by
        obtain ⟨_, hub, hwit⟩ := foldMax_spec (fun v => mapGet dh1 v) U0
            (((- maxFloat64 : ℚ)) : Dst)
        rcases hwit with heq | hwit
        · obtain ⟨w0, hw0⟩ := List.exists_mem_of_ne_nil U0 hU0ne
          have h1 : mapGet dh1 w0 ≤ bcMax dh1 U0 := hub w0 hw0
          rw [show bcMax dh1 U0 =
              U0.foldl (fun acc v => if acc < mapGet dh1 v then mapGet dh1 v else acc)
                (((- maxFloat64 : ℚ)) : Dst) from rfl, heq] at h1
          exact absurd (lt_of_le_of_lt h1 neg_maxFloat64_lt_zero)
            (not_lt.mpr (hdh1.get w0))
        · exact hwit
      have hlt : (U0.filter (fun v => decide (mapGet dh1 v < bcMax dh1 U0))).length
          < U0.length := by
        refine List.length_filter_lt_length_iff_exists.mpr ?_
        exact ⟨v0, hv0, by rw [hfv0]; simp⟩
      omega

/-! ### Claims C6 and C8 -/

/-- Claim C6 (counterexample): a level-0 call BMSSP(0, 10, {0}, k = 5, t = 1)
on the one-edge graph 0 → 1 (weight 1) returns the visited set {0, 1} of two
vertices, exceeding the claimed bound k^(2·0) = 1. -/
theorem bmssp_level0_exceeds_k_pow :
    ((bmssp (newGraph.addEdge 0 1 ((1 : ℚ) : Dst)) 5 1 50 0 ((10 : ℚ) : Dst) [0]
        [(0, ((0 : ℚ) : Dst)), (1, INF)]).map (fun r => r.2.1.length) = some 2)
    ∧ ¬ ((2 : ℤ) ≤ 5 ^ (2 * 0)) := by
  constructor
  · rfl
  · decide

/-- Claim C6 (amended): the k^(2ℓ) bound fails already at level ℓ = 0, where
BaseCase runs; what holds there is |U| ≤ k: for every level-0 call with k ≥ 0,
non-negative edge weights and non-negative stored distances, the returned
visited set has at most k vertices. -/
theorem bmssp_level0_visits_at_most_k (fuel : ℕ) (B : Dst) (S : NodeSet) (k t : ℤ)
    (g : Graph) (dhat : DMap) (B' : Dst) (U : NodeSet) (dh' : DMap)
    (hk : 0 ≤ k) (hg : WNN g) (hd : DNN dhat)
    (hres : bmssp g k t (fuel + 1) 0 B S dhat = some (B', U, dh')) :
    (U.length : ℤ) ≤ k := by
  have heq : bmssp g k t (fuel + 1) 0 B S dhat = baseCase fuel B S k g dhat := by
    simp [bmssp]
  rw [heq] at hres
  exact baseCase_count hk hg hd hres

/-- Witness for the amended C6 at the concrete level-0 call of the
counterexample: the two returned vertices are within k = 5. -/
theorem bmssp_level0_visits_at_most_k_witness :
    ((([0, 1] : NodeSet).length : ℤ) ≤ 5) :=
  bmssp_level0_visits_at_most_k 49 ((10 : ℚ) : Dst) [0] 5 1
    (newGraph.addEdge 0 1 ((1 : ℚ) : Dst)) [(0, ((0 : ℚ) : Dst)), (1, INF)]
    ((10 : ℚ) : Dst) [0, 1] [(0, ((0 : ℚ) : Dst)), (1, ((1 : ℚ) : Dst))]
    (by decide) (by decide) (by decide) rfl

/-- Claim C8 (counterexample): AddEdge performs no validation whatever: adding
an edge of negative weight −1 succeeds, stores the edge, and has no way to
report a parameter error (its signature returns nothing). -/
theorem addEdge_accepts_negative_weight :
    (newGraph.addEdge 0 1 ((-1 : ℚ) : Dst)).outEdges 0
      = [⟨1, ((-1 : ℚ) : Dst)⟩] := rfl

/-- Claim C8 (amended): the library performs no parameter validation.  AddEdge
unconditionally appends the edge for every weight, negative included; and a
call with invalid k ≤ 0 still computes a result rather than failing: BaseCase
with k = −1 returns (−MaxFloat64, ∅) on a concrete one-edge graph. -/
theorem no_parameter_validation :
    (∀ (g : Graph) (u v : NodeID) (wt : Dst),
        (g.addEdge u v wt).outEdges u = g.outEdges u ++ [⟨v, wt⟩]) ∧
    (baseCase 10 ((10 : ℚ) : Dst) [0] (-1)
        (newGraph.addEdge 0 1 ((1 : ℚ) : Dst)) [(0, ((0 : ℚ) : Dst)), (1, INF)]
      = some ((((- maxFloat64 : ℚ)) : Dst), [], [(0, ((0 : ℚ) : Dst)), (1, INF)])) := by
  constructor
  · intro g u v wt
    show ((alGet? (alSet g.adj u ((alGet? g.adj u).getD [] ++ [⟨v, wt⟩])) u).getD [])
        = (alGet? g.adj u).getD [] ++ [⟨v, wt⟩]
    rw [alGet?_alSet]
    simp
  · rfl

/-- Claim C7 (amended): Insert splits the tail block of D1 exactly when it
then exceeds M entries — not 2M.  For a fresh entry (keyBest gate passed) with
D1 non-empty, writing grown for the tail block extended by the new pair: if
|grown| ≤ M the tail is replaced by grown unsplit; if |grown| > M, D1 gains one
block, the two new blocks concatenate to a d-sorted permutation of grown
(so the split is at the median distance), and the first holds ⌊|grown|/2⌋
entries. -/
theorem insert_split_iff_tail_exceeds_M (dd : DStruct) (v : NodeID) (dist : Dst)
    (last : List Pair) (hlast : dd.D1.getLast? = some last)
    (hfresh : kbStale dd.keyBest v dist = false) :
    ∃ dd', dd.insertD v dist = some dd' ∧
      (((last.length + 1 : ℤ) ≤ dd.M →
          dd'.D1 = dd.D1.dropLast ++ [last ++ [⟨v, dist⟩]]) ∧
       (dd.M < (last.length + 1 : ℤ) →
          ∃ b1 b2 : List Pair, dd'.D1 = dd.D1.dropLast ++ [b1, b2] ∧
            (b1 ++ b2).Perm (last ++ [⟨v, dist⟩]) ∧
            List.Sorted pairLE (b1 ++ b2) ∧
            b1.length = (last.length + 1) / 2)) := by
  have hlen : ((last ++ [(⟨v, dist⟩ : Pair)]).length : ℤ) = (last.length + 1 : ℤ) := by
    simp
  have hslen : (sortByD (last ++ [(⟨v, dist⟩ : Pair)])).length = last.length + 1 := by
    simp [sortByD, List.length_insertionSort]
  have hed : dd.insertD v dist =
      (if dd.M < (((last ++ [(⟨v, dist⟩ : Pair)]).length : ℕ) : ℤ) then
        some (DStruct.mk dd.M dd.B dd.D0
          (dd.D1.dropLast ++
            [(sortByD (last ++ [⟨v, dist⟩])).take
              ((sortByD (last ++ [⟨v, dist⟩])).length / 2),
             (sortByD (last ++ [⟨v, dist⟩])).drop
              ((sortByD (last ++ [⟨v, dist⟩])).length / 2)])
          (alSet dd.keyBest v dist))
      else
        some (DStruct.mk dd.M dd.B dd.D0
          (dd.D1.dropLast ++ [last ++ [⟨v, dist⟩]])
          (alSet dd.keyBest v dist))) := by
    unfold DStruct.insertD
    rw [hfresh, hlast]
    simp only [Bool.false_eq_true, if_false]
  rw [hed]
  by_cases hsplit : dd.M < (((last ++ [(⟨v, dist⟩ : Pair)]).length : ℕ) : ℤ)
  · rw [if_pos hsplit]
    rw [hlen] at hsplit
    refine ⟨_, rfl, ⟨fun hle => absurd hsplit (not_lt.mpr hle), fun _ => ?_⟩⟩
    refine ⟨_, _, rfl, ?_, ?_, ?_⟩
    · rw [List.take_append_drop]
      exact List.perm_insertionSort pairLE _
    · rw [List.take_append_drop]
      exact List.sorted_insertionSort pairLE _
    · rw [List.length_take, hslen]
      exact min_eq_left (Nat.div_le_self _ _)
  · rw [if_neg hsplit]
    rw [hlen] at hsplit
    exact ⟨_, rfl, ⟨fun _ => rfl, fun hlt => absurd hlt hsplit⟩⟩

/-- Witness for the amended C7 at a concrete input: the freshly initialized
structure with M = 1 and a first Insert of (1, 5) (tail grows to one entry,
1 ≤ M, so no split). -/
theorem insert_split_iff_tail_exceeds_M_witness :
    ∃ dd', (newDStruct.initMB 1 ((100 : ℚ) : Dst)).insertD 1 ((5 : ℚ) : Dst) = some dd' ∧
      (((([] : List Pair).length + 1 : ℤ) ≤ (newDStruct.initMB 1 ((100 : ℚ) : Dst)).M →
          dd'.D1 = (newDStruct.initMB 1 ((100 : ℚ) : Dst)).D1.dropLast ++
            [([] : List Pair) ++ [⟨1, ((5 : ℚ) : Dst)⟩]]) ∧
       ((newDStruct.initMB 1 ((100 : ℚ) : Dst)).M < (([] : List Pair).length + 1 : ℤ) →
          ∃ b1 b2 : List Pair,
            dd'.D1 = (newDStruct.initMB 1 ((100 : ℚ) : Dst)).D1.dropLast ++ [b1, b2] ∧
            (b1 ++ b2).Perm (([] : List Pair) ++ [⟨1, ((5 : ℚ) : Dst)⟩]) ∧
            List.Sorted pairLE (b1 ++ b2) ∧
            b1.length = (([] : List Pair).length + 1) / 2)) :=
  insert_split_iff_tail_exceeds_M (newDStruct.initMB 1 ((100 : ℚ) : Dst)) 1
    ((5 : ℚ) : Dst) [] rfl rfl

/-! ### Claim C5: monotone non-increasing distance updates -/

/-- Pointwise comparison of distance maps: every entry of the first is at most
the corresponding entry of the second. -/
def Dle (m' m : DMap) : Prop := ∀ v, mapGet m' v ≤ mapGet m v

theorem dleRefl (m : DMap) : Dle m m := fun _ => le_refl _

theorem dleTrans {m2 m1 m0 : DMap} (h21 : Dle m2 m1) (h10 : Dle m1 m0) : Dle m2 m0 :=
  fun v => le_trans (h21 v) (h10 v)

theorem dleSetLe {m : DMap} {v : NodeID} {d : Dst} (hd : d ≤ mapGet m v) :
    Dle (mapSet m v d) m := by
  intro w
  rw [mapGet_mapSet]
  split
  · next heq => rw [← heq]; exact hd
  · exact le_refl _

theorem bcRelax_dle (B du : Dst) :
    ∀ (edges : List Edge) (h : List Pair) (dhat : DMap),
      Dle (bcRelax B du edges h dhat).2 dhat := by
  intro edges
  induction edges with
  | nil => intro h dhat; exact dleRefl dhat
  | cons e rest ih =>
    intro h dhat
    unfold bcRelax
    split
    · next hcond => exact dleTrans (ih _ _) (dleSetLe (le_of_lt hcond.1))
    · exact ih _ _

theorem bcLoop_dle {B : Dst} {k : ℤ} {g : Graph} :
    ∀ {fuel : ℕ} {h : List Pair} {dhat : DMap} {U0 visited : NodeSet} {Bp : Dst}
      {dh : DMap} {U : NodeSet} {Bp' : Dst},
      bcLoop B k g fuel h dhat U0 visited Bp = some (dh, U, Bp') → Dle dh dhat := by
  intro fuel
  induction fuel with
  | zero => intro h dhat U0 visited Bp dh U Bp' hres; simp [bcLoop] at hres
  | succ fuel ih =>
    intro h dhat U0 visited Bp dh U Bp' hres
    unfold bcLoop at hres
    cases hpopeq : hpop h with
    | none =>
      rw [hpopeq] at hres
      simp only [Option.some.injEq, Prod.mk.injEq] at hres
      obtain ⟨rfl, rfl, rfl⟩ := hres
      exact dleRefl _
    | some pr =>
      obtain ⟨it, h'⟩ := pr
      rw [hpopeq] at hres
      simp only at hres
      split at hres
      · simp only [Option.some.injEq, Prod.mk.injEq] at hres
        obtain ⟨rfl, rfl, rfl⟩ := hres
        exact dleRefl _
      · split at hres
        · exact ih hres
        · exact dleTrans (ih hres) (bcRelax_dle B it.d (g.outEdges it.v) h' dhat)

theorem baseCase_dle {fuel : ℕ} {B : Dst} {S : NodeSet} {k : ℤ} {g : Graph}
    {dhat : DMap} {B' : Dst} {U : NodeSet} {dh' : DMap}
    (hres : baseCase fuel B S k g dhat = some (B', U, dh')) : Dle dh' dhat := by
  unfold baseCase at hres
  cases hloop : bcLoop B k g fuel
      (S.foldl (fun h x => hpush h ⟨x, mapGet dhat x⟩) []) dhat [] [] B with
  | none => rw [hloop] at hres; simp at hres
  | some r =>
    obtain ⟨dh1, U0, Bp1⟩ := r
    rw [hloop] at hres
    simp only at hres
    have hdle := bcLoop_dle hloop
    split at hres
    · simp only [Option.some.injEq, Prod.mk.injEq] at hres
      obtain ⟨rfl, rfl, rfl⟩ := hres
      exact hdle
    · simp only [Option.some.injEq, Prod.mk.injEq] at hres
      obtain ⟨rfl, rfl, rfl⟩ := hres
      exact hdle

theorem fpRelaxEdges_dle (B : Dst) (u : NodeID) :
    ∀ (edges : List Edge) (dhat : DMap) (W next : NodeSet),
      Dle (fpRelaxEdges B u edges dhat W next).1 dhat := by
  intro edges
  induction edges with
  | nil => intro dhat W next; exact dleRefl dhat
  | cons e rest ih =>
    intro dhat W next
    unfold fpRelaxEdges
    split
    · next hcond => exact dleTrans (ih _ _ _) (dleSetLe (le_of_lt hcond))
    · exact ih _ _ _

theorem fpRelaxRound_dle (B : Dst) (g : Graph) :
    ∀ (curr : List NodeID) (dhat : DMap) (W next : NodeSet),
      Dle (fpRelaxRound B g curr dhat W next).1 dhat := by
  intro curr
  induction curr with
  | nil => intro dhat W next; exact dleRefl dhat
  | cons u us ih =>
    intro dhat W next
    exact dleTrans (ih _ _ _) (fpRelaxEdges_dle B u (g.outEdges u) dhat W next)

theorem fpRounds_dle (B : Dst) (g : Graph) (k : ℤ) (S : NodeSet) :
    ∀ (n : ℕ) (curr : NodeSet) (dhat : DMap) (W : NodeSet),
      Dle (fpRounds B g k S n curr dhat W).1 dhat := by
  intro n
  induction n with
  | zero => intro curr dhat W; exact dleRefl dhat
  | succ n ih =>
    intro curr dhat W
    unfold fpRounds
    split
    · exact fpRelaxRound_dle B g curr dhat W []
    · exact dleTrans (ih _ _ _) (fpRelaxRound_dle B g curr dhat W [])

theorem findPivots_dle {fuel : ℕ} {B : Dst} {S : NodeSet} {k : ℤ} {g : Graph}
    {dhat : DMap} {P W : NodeSet} {dh' : DMap}
    (hres : findPivots fuel B S k g dhat = some (P, W, dh')) : Dle dh' dhat := by
  unfold findPivots at hres
  cases hr : fpRounds B g k S k.toNat (nsAddAll [] S) dhat (nsAddAll [] S) with
  | mk dh1 rest =>
    obtain ⟨W1, b⟩ := rest
    rw [hr] at hres
    have hdle : Dle dh1 dhat := by
      have := fpRounds_dle B g k S k.toNat (nsAddAll [] S) dhat (nsAddAll [] S)
      rw [hr] at this
      exact this
    cases b with
    | true =>
      simp only [Option.some.injEq, Prod.mk.injEq] at hres
      obtain ⟨rfl, rfl, rfl⟩ := hres
      exact hdle
    | false =>
      simp only at hres
      cases hdfs : fpDfsAll (fpForestNodes g dh1 W1 W1 [] []).2
          (fpForestNodes g dh1 W1 W1 [] []).1 fuel W1 [] [] with
      | none => rw [hdfs] at hres; simp at hres
      | some r2 =>
        obtain ⟨vis2, ts2⟩ := r2
        rw [hdfs] at hres
        simp only [Option.some.injEq, Prod.mk.injEq] at hres
        obtain ⟨rfl, rfl, rfl⟩ := hres
        exact hdle

theorem bmRelaxEdges_dle (B Bi Bp : Dst) (u : NodeID) :
    ∀ {edges : List Edge} {dhat : DMap} {D : DStruct} {K : List Pair}
      {dh' : DMap} {D' : DStruct} {K' : List Pair},
      bmRelaxEdges B Bi Bp u edges dhat D K = some (dh', D', K') → Dle dh' dhat := by
  intro edges
  induction edges with
  | nil =>
    intro dhat D K dh' D' K' hres
    simp only [bmRelaxEdges, Option.some.injEq, Prod.mk.injEq] at hres
    obtain ⟨rfl, rfl, rfl⟩ := hres
    exact dleRefl _
  | cons e rest ih =>
    intro dhat D K dh' D' K' hres
    unfold bmRelaxEdges at hres
    split at hres
    · next h1 =>
      split at hres
      · cases hins : DStruct.insertD D e.dst (mapGet dhat u + e.w) with
        | none => rw [hins] at hres; simp at hres
        | some D2 =>
          rw [hins] at hres
          simp only at hres
          exact dleTrans (ih hres) (dleSetLe h1)
      · split at hres
        · exact dleTrans (ih hres) (dleSetLe h1)
        · exact dleTrans (ih hres) (dleSetLe h1)
    · exact ih hres

theorem bmRelaxAll_dle (B Bi Bp : Dst) (g : Graph) :
    ∀ {us : List NodeID} {dhat : DMap} {D : DStruct} {K : List Pair}
      {dh' : DMap} {D' : DStruct} {K' : List Pair},
      bmRelaxAll B Bi Bp g us dhat D K = some (dh', D', K') → Dle dh' dhat := by
  intro us
  induction us with
  | nil =>
    intro dhat D K dh' D' K' hres
    simp only [bmRelaxAll, Option.some.injEq, Prod.mk.injEq] at hres
    obtain ⟨rfl, rfl, rfl⟩ := hres
    exact dleRefl _
  | cons u us ih =>
    intro dhat D K dh' D' K' hres
    unfold bmRelaxAll at hres
    cases h1 : bmRelaxEdges B Bi Bp u (g.outEdges u) dhat D K with
    | none => rw [h1] at hres; simp at hres
    | some r =>
      obtain ⟨dh1, D1, K1⟩ := r
      rw [h1] at hres
      simp only at hres
      exact dleTrans (ih hres) (bmRelaxEdges_dle B Bi Bp u h1)

theorem bmsspLoop_dle {rec : Dst → NodeSet → DMap → Option (Dst × NodeSet × DMap)}
    {B : Dst} {g : Graph} {limit : ℤ} {bpFuel : ℕ}
    (hrec : ∀ {Bi : Dst} {Si : NodeSet} {dh : DMap} {r : Dst × NodeSet × DMap},
      rec Bi Si dh = some r → Dle r.2.2 dh) :
    ∀ {fuel : ℕ} {D : DStruct} {U : NodeSet} {dhat : DMap} {B0p : Dst}
      {D' : DStruct} {U' : NodeSet} {dh' : DMap} {B0p' : Dst},
      bmsspLoop rec B g limit bpFuel fuel D U dhat B0p = some (D', U', dh', B0p') →
      Dle dh' dhat := by
  intro fuel
  induction fuel with
  | zero => intro D U dhat B0p D' U' dh' B0p' hres; simp [bmsspLoop] at hres
  | succ fuel ih =>
    intro D U dhat B0p D' U' dh' B0p' hres
    unfold bmsspLoop at hres
    split at hres
    · cases hr : rec D.pull.1 D.pull.2.1 dhat with
      | none => rw [hr] at hres; simp at hres
      | some r =>
        obtain ⟨Bp, Ui, dhat1⟩ := r
        rw [hr] at hres
        simp only at hres
        cases hra : bmRelaxAll B D.pull.1 Bp g Ui dhat1 D.pull.2.2.2 [] with
        | none => rw [hra] at hres; simp at hres
        | some r2 =>
          obtain ⟨dhat2, D2, K1⟩ := r2
          rw [hra] at hres
          simp only at hres
          cases hbp : (if 0 < (bmCollectSi Bp D.pull.1 dhat2 D.pull.2.1 K1).length then
              D2.batchPrepend (bmCollectSi Bp D.pull.1 dhat2 D.pull.2.1 K1) bpFuel
            else some D2) with
          | none => rw [hbp] at hres; simp at hres
          | some D3 =>
            rw [hbp] at hres
            simp only at hres
            exact dleTrans (dleTrans (ih hres) (bmRelaxAll_dle B D.pull.1 Bp g hra))
              (hrec hr)
    · simp only [Option.some.injEq, Prod.mk.injEq] at hres
      obtain ⟨rfl, rfl, rfl, rfl⟩ := hres
      exact dleRefl _

theorem bmssp_dle {g : Graph} {k t : ℤ} :
    ∀ {fuel : ℕ} {l : ℤ} {B : Dst} {S : NodeSet} {dhat : DMap}
      {B' : Dst} {U : NodeSet} {dh' : DMap},
      bmssp g k t fuel l B S dhat = some (B', U, dh') → Dle dh' dhat := by
  intro fuel
  induction fuel with
  | zero => intro l B S dhat B' U dh' hres; simp [bmssp] at hres
  | succ fuel ih =>
    intro l B S dhat B' U dh' hres
    unfold bmssp at hres
    split at hres
    · exact baseCase_dle hres
    · cases hfp : findPivots fuel B S k g dhat with
      | none => rw [hfp] at hres; simp at hres
      | some r =>
        obtain ⟨P, W, dhat1⟩ := r
        rw [hfp] at hres
        simp only at hres
        split at hres
        · simp at hres
        · cases hia : bmInsertAll dhat1 P
              (newDStruct.initMB ((2 : ℤ) ^ ((l - 1) * t).toNat) B) with
          | none => rw [hia] at hres; simp at hres
          | some D1 =>
            rw [hia] at hres
            simp only at hres
            cases hlp : bmsspLoop (fun Bi Si dh => bmssp g k t fuel (l - 1) Bi Si dh)
                B g (k ^ (2 * l).toNat) fuel fuel D1 [] dhat1
                (if 0 < P.length then bmMinP dhat1 P else B) with
            | none => rw [hlp] at hres; simp at hres
            | some r2 =>
              obtain ⟨D2, U2, dhat2, B0p2⟩ := r2
              rw [hlp] at hres
              simp only [Option.some.injEq, Prod.mk.injEq] at hres
              obtain ⟨rfl, rfl, rfl⟩ := hres
              have hloopdle := bmsspLoop_dle (fun hr => ih hr) hlp
              exact dleTrans hloopdle (findPivots_dle hfp)

/-- Claim C5: every update the solver performs on the distance map is monotone:
for every vertex v, the final d̂[v] is at most the initial d̂[v], across the
recursive BMSSP (whose nested activations share the map), FindPivots' k-step
relaxation, and BaseCase's bounded Dijkstra. -/
theorem dhat_updates_monotone_nonincreasing :
    (∀ (g : Graph) (k t : ℤ) (fuel : ℕ) (l : ℤ) (B : Dst) (S : NodeSet) (dhat : DMap)
        (B' : Dst) (U : NodeSet) (dh' : DMap),
        bmssp g k t fuel l B S dhat = some (B', U, dh') →
        ∀ v, mapGet dh' v ≤ mapGet dhat v) ∧
    (∀ (fuel : ℕ) (B : Dst) (S : NodeSet) (k : ℤ) (g : Graph) (dhat : DMap)
        (P W : NodeSet) (dh' : DMap),
        findPivots fuel B S k g dhat = some (P, W, dh') →
        ∀ v, mapGet dh' v ≤ mapGet dhat v) ∧
    (∀ (fuel : ℕ) (B : Dst) (S : NodeSet) (k : ℤ) (g : Graph) (dhat : DMap)
        (B' : Dst) (U : NodeSet) (dh' : DMap),
        baseCase fuel B S k g dhat = some (B', U, dh') →
        ∀ v, mapGet dh' v ≤ mapGet dhat v) :=
  ⟨fun _ _ _ _ _ _ _ _ _ _ _ hres => bmssp_dle hres,
   fun _ _ _ _ _ _ _ _ _ hres => findPivots_dle hres,
   fun _ _ _ _ _ _ _ _ _ hres => baseCase_dle hres⟩

/-- Witness for C5 at a concrete BaseCase run on the one-edge graph: the final
value at vertex 1 (namely 1) is at most the initial value (infinity). -/
theorem dhat_updates_monotone_nonincreasing_witness :
    mapGet [(0, ((0 : ℚ) : Dst)), (1, ((1 : ℚ) : Dst))] 1
      ≤ mapGet [(0, ((0 : ℚ) : Dst)), (1, INF)] 1 :=
  dhat_updates_monotone_nonincreasing.2.2 100 ((10 : ℚ) : Dst) [0] 5
    (newGraph.addEdge 0 1 ((1 : ℚ) : Dst)) [(0, ((0 : ℚ) : Dst)), (1, INF)]
    ((10 : ℚ) : Dst) [0, 1] [(0, ((0 : ℚ) : Dst)), (1, ((1 : ℚ) : Dst))] rfl 1

/-! ### Claim C3: the pivot-forest theory.

The parent map built by FindPivots assigns each vertex at most one parent;
chaseRoot follows parents upward.  Desc x u says the parent chain from x
reaches u; Chase x r says the chase from x terminates at the parentless r. -/

/-- The chain from x terminates at root r with some fuel. -/
def Chase (parent : List (NodeID × NodeID)) (x r : NodeID) : Prop :=
  ∃ f, chaseRoot parent f x = some r

/-- x's upward parent chain passes through u (reflexively). -/
inductive Desc (parent : List (NodeID × NodeID)) : NodeID → NodeID → Prop where
  | refl (u : NodeID) : Desc parent u u
  | step {x p u : NodeID} : alGet? parent x = some p → Desc parent p u → Desc parent x u

theorem chaseRoot_mono {parent : List (NodeID × NodeID)} :
    ∀ {f : ℕ} {x r : NodeID}, chaseRoot parent f x = some r →
      ∀ {f' : ℕ}, f ≤ f' → chaseRoot parent f' x = some r := by
  intro f
  induction f with
  | zero => intro x r h; simp [chaseRoot] at h
  | succ f ih =>
    intro x r h f' hle
    obtain ⟨f'', rfl⟩ : ∃ f'', f' = f'' + 1 := ⟨f' - 1, by omega⟩
    unfold chaseRoot at h ⊢
    cases hp : alGet? parent x with
    | none => rw [hp] at h; exact h
    | some p => rw [hp] at h; exact ih h (by omega)

theorem chaseRoot_parentless {parent : List (NodeID × NodeID)} :
    ∀ {f : ℕ} {x r : NodeID}, chaseRoot parent f x = some r → alGet? parent r = none := by
  intro f
  induction f with
  | zero => intro x r h; simp [chaseRoot] at h
  | succ f ih =>
    intro x r h
    unfold chaseRoot at h
    cases hp : alGet? parent x with
    | none =>
      rw [hp] at h
      obtain rfl : x = r := by simpa using h
      exact hp
    | some p =>
      rw [hp] at h
      exact ih h

theorem chase_unique {parent : List (NodeID × NodeID)} {x r1 r2 : NodeID}
    (h1 : Chase parent x r1) (h2 : Chase parent x r2) : r1 = r2 := by
  obtain ⟨f1, h1⟩ := h1
  obtain ⟨f2, h2⟩ := h2
  have h1' := chaseRoot_mono h1 (le_max_left f1 f2)
  have h2' := chaseRoot_mono h2 (le_max_right f1 f2)
  rw [h1'] at h2'
  exact Option.some.inj h2'

theorem chase_step {parent : List (NodeID × NodeID)} {x p r : NodeID}
    (hp : alGet? parent x = some p) (hc : Chase parent p r) : Chase parent x r := by
  obtain ⟨f, hf⟩ := hc
  exact ⟨f + 1, by unfold chaseRoot; rw [hp]; exact hf⟩

theorem chase_down {parent : List (NodeID × NodeID)} {x p r : NodeID}
    (hp : alGet? parent x = some p) (hc : Chase parent x r) : Chase parent p r := by
  obtain ⟨f, hf⟩ := hc
  cases f with
  | zero => simp [chaseRoot] at hf
  | succ f =>
    unfold chaseRoot at hf
    rw [hp] at hf
    exact ⟨f, hf⟩

theorem chase_self {parent : List (NodeID × NodeID)} {r : NodeID}
    (h : alGet? parent r = none) : Chase parent r r :=
  ⟨1, by unfold chaseRoot; rw [h]⟩

theorem chase_of_parentless_chase {parent : List (NodeID × NodeID)} {x r : NodeID}
    (hc : Chase parent x r) : Chase parent r r :=
  chase_self (hc.elim fun _ h => chaseRoot_parentless h)

theorem desc_trans {parent : List (NodeID × NodeID)} {x y z : NodeID}
    (h1 : Desc parent x y) (h2 : Desc parent y z) : Desc parent x z := by
  induction h1 with
  | refl => exact h2
  | step hp _ ih => exact Desc.step hp (ih h2)

theorem desc_chase {parent : List (NodeID × NodeID)} {x u r : NodeID}
    (hd : Desc parent x u) (hc : Chase parent u r) : Chase parent x r := by
  induction hd with
  | refl => exact hc
  | step hp _ ih => exact chase_step hp (ih hc)

theorem desc_cases {parent : List (NodeID × NodeID)} {x y : NodeID}
    (h : Desc parent x y) : x = y ∨ ∃ p, alGet? parent x = some p ∧ Desc parent p y := by
  cases h with
  | refl => exact Or.inl rfl
  | step hp hd => exact Or.inr ⟨_, hp, hd⟩

theorem chase_fuel_le_of_desc {parent : List (NodeID × NodeID)} {y x r : NodeID}
    (hd : Desc parent y x) :
    ∀ {g : ℕ}, chaseRoot parent g y = some r → ∃ g' ≤ g, chaseRoot parent g' x = some r := by
  induction hd with
  | refl => intro g h; exact ⟨g, le_refl g, h⟩
  | step hp _ ih =>
    intro g h
    cases g with
    | zero => simp [chaseRoot] at h
    | succ g =>
      unfold chaseRoot at h
      rw [hp] at h
      obtain ⟨g', hg', h'⟩ := ih h
      exact ⟨g', by omega, h'⟩

/-- A vertex whose chase terminates cannot have its parent below itself: the
parent chain would loop. -/
theorem no_desc_parent {parent : List (NodeID × NodeID)} {x p r : NodeID}
    (hp : alGet? parent x = some p) (hc : Chase parent x r) (hd : Desc parent p x) :
    False := by
  classical
  obtain ⟨hex⟩ : Nonempty (∃ f, chaseRoot parent f x = some r) := ⟨hc⟩
  have h0 : chaseRoot parent (Nat.find hex) x = some r := Nat.find_spec hex
  cases hf0 : Nat.find hex with
  | zero => rw [hf0] at h0; simp [chaseRoot] at h0
  | succ m =>
    rw [hf0] at h0
    unfold chaseRoot at h0
    rw [hp] at h0
    obtain ⟨g', hg', h'⟩ := chase_fuel_le_of_desc hd h0
    have := Nat.find_min hex (m := g') (by omega)
    exact this h'

/-- Two targets on the same terminating upward chain are comparable. -/
theorem chain_linear {parent : List (NodeID × NodeID)} :
    ∀ {x a : NodeID}, Desc parent x a →
      ∀ {b r : NodeID}, Chase parent x r → Desc parent x b →
      Desc parent a b ∨ Desc parent b a := by
  intro x a ha
  induction ha with
  | refl => intro b r _ hb; exact Or.inl hb
  | step hp hpa ih =>
    intro b r hc hb
    rcases desc_cases hb with rfl | ⟨p', hp', hpb⟩
    · exact Or.inr (Desc.step hp hpa)
    · rw [hp] at hp'
      obtain rfl : _ = p' := by simpa using hp'
      exact ih (chase_down hp hc) hpb

/-- The invariants of the tight-forest construction: children point back to
their recorded parent, parent entries stay inside W, and children lists are
duplicate-free. -/
structure ForestInv (W : NodeSet) (parent : List (NodeID × NodeID))
    (children : List (NodeID × List NodeID)) : Prop where
  childParent : ∀ u c, c ∈ (alGet? children u).getD [] → alGet? parent c = some u
  parentMem : ∀ c p, alGet? parent c = some p → c ∈ W ∧ p ∈ W
  childNodup : ∀ u, ((alGet? children u).getD []).Nodup

theorem forestInv_nil (W : NodeSet) : ForestInv W [] [] := by
  constructor
  · intro u c hc; simp [alGet?] at hc
  · intro c p hp; simp [alGet?] at hp
  · intro u; simp [alGet?]

theorem fpForestEdges_inv {dhat : DMap} {W : NodeSet} {u : NodeID} (hu : u ∈ W) :
    ∀ {edges : List Edge} {parent : List (NodeID × NodeID)}
      {children : List (NodeID × List NodeID)},
      ForestInv W parent children →
      ForestInv W (fpForestEdges dhat W u edges parent children).1
        (fpForestEdges dhat W u edges parent children).2 := by
  intro edges
  induction edges with
  | nil => intro parent children hI; exact hI
  | cons e rest ih =>
    intro parent children hI
    unfold fpForestEdges
    split
    · next hcond =>
      obtain ⟨hdW, _, hnone⟩ := hcond
      refine ih ?_
      have hnoPar : alGet? parent e.dst = none := by
        cases hap : alGet? parent e.dst with
        | none => rfl
        | some p => rw [hap] at hnone; simp at hnone
      constructor
      · intro u' c hc
        rw [alGet?_alSet] at hc
        rw [alGet?_alSet]
        by_cases huu : u = u'
        · subst huu
          rw [if_pos rfl] at hc
          simp only [Option.getD_some] at hc
          rcases List.mem_append.mp hc with hcold | hcnew
          · have hp := hI.childParent u c hcold
            have hne : e.dst ≠ c := by
              intro heq
              rw [heq] at hnoPar
              rw [hnoPar] at hp
              exact Option.noConfusion hp
            rw [if_neg hne]
            exact hp
          · obtain rfl : c = e.dst := List.mem_singleton.mp hcnew
            rw [if_pos rfl]
        · rw [if_neg huu] at hc
          have hp := hI.childParent u' c hc
          have hne : e.dst ≠ c := by
            intro heq
            rw [heq] at hnoPar
            rw [hnoPar] at hp
            exact Option.noConfusion hp
          rw [if_neg hne]
          exact hp
      · intro c p hp
        rw [alGet?_alSet] at hp
        by_cases hce : e.dst = c
        · subst hce
          rw [if_pos rfl] at hp
          obtain rfl : u = p := by simpa using hp
          exact ⟨hdW, hu⟩
        · rw [if_neg hce] at hp
          exact hI.parentMem c p hp
      · intro u'
        rw [alGet?_alSet]
        by_cases huu : u = u'
        · subst huu
          rw [if_pos rfl]
          simp only [Option.getD_some]
          rw [List.nodup_append]
          refine ⟨hI.childNodup u, List.nodup_singleton _, ?_⟩
          intro c hcold hcnew
          obtain rfl : c = e.dst := List.mem_singleton.mp hcnew
          have hp := hI.childParent u e.dst hcold
          rw [hnoPar] at hp
          exact Option.noConfusion hp
        · rw [if_neg huu]
          exact hI.childNodup u'
    · exact ih hI

theorem fpForestNodes_inv {g : Graph} {dhat : DMap} {W : NodeSet} :
    ∀ {us : List NodeID} {parent : List (NodeID × NodeID)}
      {children : List (NodeID × List NodeID)},
      (∀ u ∈ us, u ∈ W) → ForestInv W parent children →
      ForestInv W (fpForestNodes g dhat W us parent children).1
        (fpForestNodes g dhat W us parent children).2 := by
  intro us
  induction us with
  | nil => intro parent children _ hI; exact hI
  | cons u rest ih =>
    intro parent children hus hI
    exact ih (fun u' h => hus u' (by simp [h]))
      (fpForestEdges_inv (hus u (by simp)) hI)

theorem nsAdd_of_not_mem {s : NodeSet} {v : NodeID} (h : v ∉ s) : nsAdd s v = s ++ [v] := by
  simp [nsAdd, h]

theorem chaseRoot_of_parentless {parent : List (NodeID × NodeID)} {p : NodeID}
    (h : alGet? parent p = none) (f : ℕ) : chaseRoot parent (f + 1) p = some p := by
  unfold chaseRoot
  rw [h]

/-- The conclusions of one successful memoized-dfs call from an unvisited u:
the new nodes form a block appended to visited, headed by u, all below u and
inside W, all chasing (with bounded fuel) to u's root, at least as many as the
returned size; treeSize gains entries only for new nodes, each bounded by the
block size. -/
def DfsConc (parent : List (NodeID × NodeID)) (W : NodeSet) (fuel : ℕ) (u : NodeID)
    (visited : NodeSet) (ts : List (NodeID × ℤ)) (n : ℤ) (vis' : NodeSet)
    (ts' : List (NodeID × ℤ)) (r : NodeID) : Prop :=
  ∃ newN : List NodeID,
    newN.head? = some u ∧
    vis' = visited ++ newN ∧ newN.Nodup ∧
    (∀ x ∈ newN, Desc parent x u ∧ x ∈ W) ∧
    (∀ x ∈ newN, ∀ F, chaseRoot parent F u = some r →
        chaseRoot parent (fuel + F) x = some r) ∧
    n ≤ (newN.length : ℤ) ∧
    (∀ w m, alGet? ts' w = some m → alGet? ts w = some m ∨
        (w ∈ newN ∧ m ≤ (newN.length : ℤ)))

theorem dfsKids_spec {W : NodeSet} {parent : List (NodeID × NodeID)}
    {children : List (NodeID × List NodeID)} (hI : ForestInv W parent children)
    (fuel : ℕ)
    (hrec : ∀ {u : NodeID} {visited : NodeSet} {ts : List (NodeID × ℤ)} {n : ℤ}
      {vis' : NodeSet} {ts' : List (NodeID × ℤ)} {r : NodeID},
      dfsF children fuel u visited ts = some (n, vis', ts') →
      Chase parent u r → u ∈ W → u ∉ visited →
      (∀ x ∈ visited, ¬ Desc parent x u) →
      DfsConc parent W fuel u visited ts n vis' ts' r) :
    ∀ {cs : List NodeID} {u r : NodeID},
      (∀ c ∈ cs, alGet? parent c = some u) → cs.Nodup → Chase parent u r →
      ∀ {acc : ℤ} {vis : NodeSet} {ts : List (NodeID × ℤ)} {acc' : ℤ}
        {vis' : NodeSet} {ts' : List (NodeID × ℤ)},
      dfsKids (dfsF children fuel) cs acc vis ts = some (acc', vis', ts') →
      (∀ c ∈ cs, ∀ x ∈ vis, ¬ Desc parent x c) →
      ∃ newN : List NodeID,
        vis' = vis ++ newN ∧ newN.Nodup ∧
        (∀ x ∈ newN, (∃ c ∈ cs, Desc parent x c) ∧ x ∈ W) ∧
        (∀ x ∈ newN, ∀ F, chaseRoot parent F u = some r →
            chaseRoot parent (fuel + 1 + F) x = some r) ∧
        acc' ≤ acc + (newN.length : ℤ) ∧
        (∀ w m, alGet? ts' w = some m → alGet? ts w = some m ∨
            (w ∈ newN ∧ m ≤ (newN.length : ℤ))) := by
  intro cs
  induction cs with
  | nil =>
    intro u r _ _ _ acc vis ts acc' vis' ts' hres _
    simp only [dfsKids, Option.some.injEq, Prod.mk.injEq] at hres
    obtain ⟨rfl, rfl, rfl⟩ := hres
    exact ⟨[], by simp, List.nodup_nil, by simp, by simp, by simp,
      fun w m hm => Or.inl hm⟩
  | cons c cs' ih =>
    intro u r kc hnd hchu acc vis ts acc' vis' ts' hres hvv
    have hc_par : alGet? parent c = some u := kc c (by simp)
    have hCc : Chase parent c r := chase_step hc_par hchu
    have hcW : c ∈ W := (hI.parentMem c u hc_par).1
    have hcnv : c ∉ vis := fun hmem => hvv c (by simp) c hmem (Desc.refl c)
    unfold dfsKids at hres
    cases hcall : dfsF children fuel c vis ts with
    | none => rw [hcall] at hres; simp at hres
    | some tri =>
      obtain ⟨s, vis1, ts1⟩ := tri
      rw [hcall] at hres
      simp only at hres
      obtain ⟨newN1, hhd1, hvis1, hnd1, hdesc1, hch1, hs1, hts1⟩ :=
        hrec hcall hCc hcW hcnv (fun x hx => hvv c (by simp) x hx)
      have hvv' : ∀ c' ∈ cs', ∀ x ∈ vis ++ newN1, ¬ Desc parent x c' := by
        intro c' hc' x hx hdxc'
        rcases List.mem_append.mp hx with hxv | hxn
        · exact hvv c' (by simp [hc']) x hxv hdxc'
        · have hdxc : Desc parent x c := (hdesc1 x hxn).1
          have hcx : Chase parent x r := desc_chase hdxc hCc
          have hc'_par : alGet? parent c' = some u := kc c' (by simp [hc'])
          have hCc' : Chase parent c' r := chase_step hc'_par hchu
          rcases chain_linear hdxc hcx hdxc' with hcc' | hc'c
          · rcases desc_cases hcc' with rfl | ⟨p, hp, hpc'⟩
            · exact (List.nodup_cons.mp hnd).1 hc'
            · rw [hc_par] at hp
              obtain rfl : u = p := Option.some.inj hp
              exact no_desc_parent hc'_par hCc' hpc'
          · rcases desc_cases hc'c with heq | ⟨p, hp, hpc⟩
            · exact (List.nodup_cons.mp hnd).1 (heq ▸ hc')
            · rw [hc'_par] at hp
              obtain rfl : u = p := Option.some.inj hp
              exact no_desc_parent hc_par hCc hpc
      rw [hvis1] at hres
      obtain ⟨newN2, hvis2, hnd2, hdesc2, hch2, hacc2, hts2⟩ :=
        ih (fun c' h => kc c' (by simp [h])) (List.nodup_cons.mp hnd).2 hchu hres hvv'
      refine ⟨newN1 ++ newN2, ?_, ?_, ?_, ?_, ?_, ?_⟩
      · rw [hvis2, List.append_assoc]
      · rw [List.nodup_append]
        refine ⟨hnd1, hnd2, ?_⟩
        intro x hx1 hx2
        obtain ⟨⟨c', hc', hdx⟩, _⟩ := hdesc2 x hx2
        exact hvv' c' hc' x (List.mem_append.mpr (Or.inr hx1)) hdx
      · intro x hx
        rcases List.mem_append.mp hx with hx1 | hx2
        · exact ⟨⟨c, by simp, (hdesc1 x hx1).1⟩, (hdesc1 x hx1).2⟩
        · obtain ⟨⟨c', hc', hdx⟩, hxW⟩ := hdesc2 x hx2
          exact ⟨⟨c', by simp [hc'], hdx⟩, hxW⟩
      · intro x hx F hF
        rcases List.mem_append.mp hx with hx1 | hx2
        · have hFc : chaseRoot parent (F + 1) c = some r := by
            unfold chaseRoot
            rw [hc_par]
            exact hF
          have := hch1 x hx1 (F + 1) hFc
          have heq : fuel + (F + 1) = fuel + 1 + F := by omega
          rw [heq] at this
          exact this
        · exact hch2 x hx2 F hF
      · have hlen : ((newN1 ++ newN2).length : ℤ)
            = (newN1.length : ℤ) + (newN2.length : ℤ) := by
          push_cast [List.length_append]
          ring
        rw [hlen]
        omega
      · intro w m hm
        rcases hts2 w m hm with hold2 | ⟨hw2, hb2⟩
        · rcases hts1 w m hold2 with hold1 | ⟨hw1, hb1⟩
          · exact Or.inl hold1
          · refine Or.inr ⟨List.mem_append.mpr (Or.inl hw1), ?_⟩
            have : (newN1.length : ℤ) ≤ ((newN1 ++ newN2).length : ℤ) := by
              push_cast [List.length_append]
              omega
            omega
        · refine Or.inr ⟨List.mem_append.mpr (Or.inr hw2), ?_⟩
          have : (newN2.length : ℤ) ≤ ((newN1 ++ newN2).length : ℤ) := by
            push_cast [List.length_append]
            omega
          omega

theorem dfsF_spec {W : NodeSet} {parent : List (NodeID × NodeID)}
    {children : List (NodeID × List NodeID)} (hI : ForestInv W parent children) :
    ∀ {fuel : ℕ} {u : NodeID} {visited : NodeSet} {ts : List (NodeID × ℤ)} {n : ℤ}
      {vis' : NodeSet} {ts' : List (NodeID × ℤ)} {r : NodeID},
      dfsF children fuel u visited ts = some (n, vis', ts') →
      Chase parent u r → u ∈ W → u ∉ visited →
      (∀ x ∈ visited, ¬ Desc parent x u) →
      DfsConc parent W fuel u visited ts n vis' ts' r := by
  intro fuel
  induction fuel with
  | zero =>
    intro u visited ts n vis' ts' r hres
    simp [dfsF] at hres
  | succ fuel ih =>
    intro u visited ts n vis' ts' r hres hchu huW hunv hv
    unfold dfsF at hres
    rw [if_neg hunv] at hres
    cases hkids : dfsKids (dfsF children fuel) ((alGet? children u).getD []) 1
        (nsAdd visited u) ts with
    | none => rw [hkids] at hres; simp at hres
    | some tri =>
      obtain ⟨s, vis1, ts1⟩ := tri
      rw [hkids] at hres
      simp only [Option.some.injEq, Prod.mk.injEq] at hres
      obtain ⟨rfl, rfl, rfl⟩ := hres
      rw [nsAdd_of_not_mem hunv] at hkids
      have hvv : ∀ c ∈ (alGet? children u).getD [], ∀ x ∈ visited ++ [u],
          ¬ Desc parent x c := by
        intro c hc x hx hdxc
        have hc_par : alGet? parent c = some u := hI.childParent u c hc
        rcases List.mem_append.mp hx with hxv | hxu
        · exact hv x hxv (desc_trans hdxc (Desc.step hc_par (Desc.refl u)))
        · obtain rfl : x = u := List.mem_singleton.mp hxu
          exact no_desc_parent hc_par (chase_step hc_par hchu) hdxc
      obtain ⟨newNk, hvisk, hndk, hdesck, hchk, hacck, htsk⟩ :=
        dfsKids_spec hI fuel (fun h1 h2 h3 h4 h5 => ih h1 h2 h3 h4 h5)
          (hI.childParent u) (hI.childNodup u) hchu hkids hvv
      have hunotk : u ∉ newNk := by
        intro hu
        obtain ⟨⟨c, hc, hduc⟩, _⟩ := hdesck u hu
        exact no_desc_parent (hI.childParent u c hc)
          (chase_step (hI.childParent u c hc) hchu) hduc
      refine ⟨u :: newNk, rfl, ?_, ?_, ?_, ?_, ?_, ?_⟩
      · rw [hvisk, List.append_assoc]
        rfl
      · exact List.nodup_cons.mpr ⟨hunotk, hndk⟩
      · intro x hx
        rcases List.mem_cons.mp hx with rfl | hxk
        · exact ⟨Desc.refl x, huW⟩
        · obtain ⟨⟨c, hc, hdx⟩, hxW⟩ := hdesck x hxk
          exact ⟨desc_trans hdx (Desc.step (hI.childParent u c hc) (Desc.refl u)), hxW⟩
      · intro x hx F hF
        rcases List.mem_cons.mp hx with rfl | hxk
        · exact chaseRoot_mono hF (by omega)
        · exact hchk x hxk F hF
      · have : (List.length (u :: newNk) : ℤ) = 1 + (newNk.length : ℤ) := by
          push_cast [List.length_cons]
          ring
        omega
      · intro w m hm
        rw [alGet?_alSet] at hm
        by_cases huw : u = w
        · subst huw
          rw [if_pos rfl] at hm
          obtain rfl : s = m := Option.some.inj hm
          refine Or.inr ⟨by simp, ?_⟩
          have : (List.length (u :: newNk) : ℤ) = 1 + (newNk.length : ℤ) := by
            push_cast [List.length_cons]
            ring
          omega
        · rw [if_neg huw] at hm
          rcases htsk w m hm with hold | ⟨hwk, hb⟩
          · exact Or.inl hold
          · refine Or.inr ⟨by simp [hwk], ?_⟩
            have : (List.length (u :: newNk) : ℤ) = 1 + (newNk.length : ℤ) := by
              push_cast [List.length_cons]
              ring
            omega

theorem chaseRoot_mem_W {W : NodeSet} {parent : List (NodeID × NodeID)}
    {children : List (NodeID × List NodeID)} (hI : ForestInv W parent children) :
    ∀ {f : ℕ} {x r : NodeID}, x ∈ W → chaseRoot parent f x = some r → r ∈ W := by
  intro f
  induction f with
  | zero => intro x r _ h; simp [chaseRoot] at h
  | succ f ih =>
    intro x r hx h
    unfold chaseRoot at h
    cases hp : alGet? parent x with
    | none =>
      rw [hp] at h
      obtain rfl : x = r := by simpa using h
      exact hx
    | some p =>
      rw [hp] at h
      exact ih (hI.parentMem x p hp).2 h

/-- A duplicate-free block whose members all land in a list is no longer than
that list. -/
theorem nodup_subset_length {l l' : List NodeID} (hnd : l.Nodup) (hsub : ∀ x ∈ l, x ∈ l') :
    l.length ≤ l'.length :=
  (List.subperm_of_subset hnd hsub).length_le

/-- The invariant of the dfs driver: every treeSize entry recorded for a
parentless vertex is bounded by the size of its chase fiber inside W. -/
theorem fpDfsAll_inv {W : NodeSet} {parent : List (NodeID × NodeID)}
    {children : List (NodeID × List NodeID)} (hI : ForestInv W parent children)
    {fuel : ℕ} :
    ∀ {vs : List NodeID} {vis : NodeSet} {ts : List (NodeID × ℤ)}
      {vis' : NodeSet} {ts' : List (NodeID × ℤ)},
      fpDfsAll children parent fuel vs vis ts = some (vis', ts') →
      (∀ v ∈ vs, v ∈ W) →
      (∀ x ∈ vis, ∃ rx, Chase parent x rx ∧ rx ∈ vis) →
      (∀ p m, alGet? parent p = none → alGet? ts p = some m →
        m ≤ ((W.countP (fun x => decide (chaseRoot parent (fuel + 1) x = some p))) : ℤ)) →
      ∀ p m, alGet? parent p = none → alGet? ts' p = some m →
        m ≤ ((W.countP (fun x => decide (chaseRoot parent (fuel + 1) x = some p))) : ℤ) := by
  intro vs
  induction vs with
  | nil =>
    intro vis ts vis' ts' hres _ _ hITS
    simp only [fpDfsAll, Option.some.injEq, Prod.mk.injEq] at hres
    obtain ⟨rfl, rfl⟩ := hres
    exact hITS
  | cons v vs' ih =>
    intro vis ts vis' ts' hres hvs hIA hITS
    unfold fpDfsAll at hres
    cases hchase : chaseRoot parent fuel v with
    | none => rw [hchase] at hres; simp at hres
    | some root =>
      rw [hchase] at hres
      simp only at hres
      cases hdfs : dfsF children fuel root vis ts with
      | none => rw [hdfs] at hres; simp at hres
      | some tri =>
        obtain ⟨n1, vis1, ts1⟩ := tri
        rw [hdfs] at hres
        simp only at hres
        have hrootW : root ∈ W := chaseRoot_mem_W hI (hvs v (by simp)) hchase
        have hrootPl : alGet? parent root = none := chaseRoot_parentless hchase
        cases fuel with
        | zero => simp [chaseRoot] at hchase
        | succ fl =>
          by_cases hrv : root ∈ vis
          · have hdfseq : dfsF children (fl + 1) root vis ts
                = some ((alGet? ts root).getD 0, vis, ts) := by
              unfold dfsF
              rw [if_pos hrv]
            rw [hdfseq] at hdfs
            simp only [Option.some.injEq, Prod.mk.injEq] at hdfs
            obtain ⟨rfl, rfl, rfl⟩ := hdfs
            exact ih hres (fun v' h => hvs v' (by simp [h])) hIA hITS
          · have hv : ∀ x ∈ vis, ¬ Desc parent x root := by
              intro x hx hd
              obtain ⟨rx, hcrx, hrxvis⟩ := hIA x hx
              have : rx = root :=
                chase_unique hcrx (desc_chase hd (chase_self hrootPl))
              rw [this] at hrxvis
              exact hrv hrxvis
            obtain ⟨newN, hhd, hvis1, hndN, hdescN, hchN, hn1, htsN⟩ :=
              dfsF_spec hI hdfs (chase_self hrootPl) hrootW hrv hv
            have hrootMem : root ∈ newN := by
              cases newN with
              | nil => simp at hhd
              | cons a l =>
                obtain rfl : a = root := by simpa using hhd
                simp
            have hch1 : chaseRoot parent 1 root = some root :=
              chaseRoot_of_parentless hrootPl 0
            have hIA1 : ∀ x ∈ vis1, ∃ rx, Chase parent x rx ∧ rx ∈ vis1 := by
              intro x hx
              rw [hvis1] at hx
              rcases List.mem_append.mp hx with hxv | hxn
              · obtain ⟨rx, hc, hm⟩ := hIA x hxv
                exact ⟨rx, hc, by rw [hvis1]; exact List.mem_append.mpr (Or.inl hm)⟩
              · refine ⟨root, ⟨fl + 1 + 1, hchN x hxn 1 hch1⟩, ?_⟩
                rw [hvis1]
                exact List.mem_append.mpr (Or.inr hrootMem)
            have hITS1 : ∀ p m, alGet? parent p = none → alGet? ts1 p = some m →
                m ≤ ((W.countP
                  (fun x => decide (chaseRoot parent (fl + 1 + 1) x = some p))) : ℤ) := by
              intro p m hpPl hts1p
              rcases htsN p m hts1p with hold | ⟨hpN, hb⟩
              · exact hITS p m hpPl hold
              · have hpr : chaseRoot parent (fl + 1 + 1) p = some root :=
                  hchN p hpN 1 hch1
                have hpp : chaseRoot parent (fl + 1 + 1) p = some p :=
                  chaseRoot_of_parentless hpPl (fl + 1)
                rw [hpp] at hpr
                obtain rfl : p = root := by simpa using hpr
                refine le_trans hb ?_
                have hsub : ∀ x ∈ newN, x ∈ W.filter
                    (fun x => decide (chaseRoot parent (fl + 1 + 1) x = some p)) := by
                  intro x hx
                  rw [List.mem_filter]
                  exact ⟨(hdescN x hx).2, by
                    simp only [decide_eq_true_eq]
                    exact hchN x hx 1 hch1⟩
                have := nodup_subset_length hndN hsub
                rw [List.countP_eq_length_filter]
                exact_mod_cast this
            exact ih hres (fun v' h => hvs v' (by simp [h])) hIA1 hITS1

/-- Distinct fibers of a partial assignment cover each element at most once. -/
theorem sum_countP_fibers_le (f : NodeID → Option NodeID) :
    ∀ (P : List NodeID), P.Nodup → ∀ (W : List NodeID),
      ((P.map (fun p => W.countP (fun x => decide (f x = some p)))).sum ≤ W.length) := by
  intro P
  induction P with
  | nil => intro _ W; simp
  | cons p P' ih =>
    intro hnd W
    have hnotmem : p ∉ P' := (List.nodup_cons.mp hnd).1
    have hcong : ∀ p' ∈ P',
        W.countP (fun x => decide (f x = some p'))
          = (W.filter (fun x => ! decide (f x = some p))).countP
              (fun x => decide (f x = some p')) := by
      intro p' hp'
      rw [List.countP_filter]
      refine (List.countP_congr ?_).symm
      intro x _
      by_cases hfx : f x = some p'
      · have hne : p' ≠ p := fun hcontra => hnotmem (hcontra ▸ hp')
        simp [hfx, hne]
      · simp [hfx]
    have hmapcong :
        (P'.map (fun p' => W.countP (fun x => decide (f x = some p')))).sum
          = (P'.map (fun p' => (W.filter (fun x => ! decide (f x = some p))).countP
              (fun x => decide (f x = some p')))).sum := by
      congr 1
      exact List.map_congr_left hcong
    have hsplit : W.length = W.countP (fun x => decide (f x = some p))
        + (W.filter (fun x => ! decide (f x = some p))).length := by
      rw [← List.countP_eq_length_filter]
      have h0 := List.length_eq_countP_add_countP (fun x => f x = some p) W
      simpa [decide_not] using h0
    simp only [List.map_cons, List.sum_cons]
    rw [hmapcong, hsplit]
    have := ih (List.nodup_cons.mp hnd).2 (W.filter (fun x => ! decide (f x = some p)))
    omega

theorem fpRelaxEdges_W_nodup (B : Dst) (u : NodeID) :
    ∀ (edges : List Edge) (dhat : DMap) (W next : NodeSet), W.Nodup →
      (fpRelaxEdges B u edges dhat W next).2.1.Nodup := by
  intro edges
  induction edges with
  | nil => intro dhat W next h; exact h
  | cons e rest ih =>
    intro dhat W next h
    unfold fpRelaxEdges
    split
    · exact ih _ _ _ (nsAdd_nodup h e.dst)
    · exact ih _ _ _ h

theorem fpRelaxRound_W_nodup (B : Dst) (g : Graph) :
    ∀ (us : List NodeID) (dhat : DMap) (W next : NodeSet), W.Nodup →
      (fpRelaxRound B g us dhat W next).2.1.Nodup := by
  intro us
  induction us with
  | nil => intro dhat W next h; exact h
  | cons u rest ih =>
    intro dhat W next h
    exact ih _ _ _ (fpRelaxEdges_W_nodup B u (g.outEdges u) dhat W next h)

theorem fpRounds_W_nodup (B : Dst) (g : Graph) (k : ℤ) (S : NodeSet) :
    ∀ (n : ℕ) (curr : NodeSet) (dhat : DMap) (W : NodeSet), W.Nodup →
      (fpRounds B g k S n curr dhat W).2.1.Nodup := by
  intro n
  induction n with
  | zero => intro curr dhat W h; exact h
  | succ n ih =>
    intro curr dhat W h
    unfold fpRounds
    split
    · exact fpRelaxRound_W_nodup B g curr dhat W [] h
    · exact ih _ _ _ (fpRelaxRound_W_nodup B g curr dhat W [] h)

/-- If the early-exit flag was never raised, the witness set stays within
k times the source-set size (given that the input set already does). -/
theorem fpRounds_false_bound (B : Dst) (g : Graph) (k : ℤ) (S : NodeSet) :
    ∀ (n : ℕ) (curr : NodeSet) (dhat : DMap) (W : NodeSet) (d' : DMap) (W' : NodeSet),
      fpRounds B g k S n curr dhat W = (d', W', false) →
      (W.length : ℤ) ≤ k * (S.length : ℤ) →
      (W'.length : ℤ) ≤ k * (S.length : ℤ) := by
  intro n
  induction n with
  | zero =>
    intro curr dhat W d' W' hres hW
    simp only [fpRounds, Prod.mk.injEq] at hres
    obtain ⟨-, rfl, -⟩ := hres
    exact hW
  | succ n ih =>
    intro curr dhat W d' W' hres hW
    unfold fpRounds at hres
    split at hres
    · simp at hres
    · rename_i hno
      exact ih _ _ _ _ _ hres (by omega)

/-- If the early-exit flag was raised, the witness set strictly exceeds
k times the source-set size. -/
theorem fpRounds_true_bound (B : Dst) (g : Graph) (k : ℤ) (S : NodeSet) :
    ∀ (n : ℕ) (curr : NodeSet) (dhat : DMap) (W : NodeSet) (d' : DMap) (W' : NodeSet),
      fpRounds B g k S n curr dhat W = (d', W', true) →
      k * (S.length : ℤ) < (W'.length : ℤ) := by
  intro n
  induction n with
  | zero =>
    intro curr dhat W d' W' hres
    simp [fpRounds] at hres
  | succ n ih =>
    intro curr dhat W d' W' hres
    unfold fpRounds at hres
    split at hres
    · rename_i hlt
      simp only [Prod.mk.injEq] at hres
      obtain ⟨-, rfl, -⟩ := hres
      exact hlt
    · exact ih _ _ _ _ _ hres

theorem mul_length_le_sum (k : ℤ) (f : NodeID → ℕ) :
    ∀ (P : List NodeID), (∀ p ∈ P, k ≤ (f p : ℤ)) →
      k * (P.length : ℤ) ≤ ((P.map f).sum : ℤ) := by
  intro P
  induction P with
  | nil => intro _; simp
  | cons p P' ih =>
    intro h
    have h1 : k ≤ (f p : ℤ) := h p (by simp)
    have h2 := ih (fun p' hp' => h p' (by simp [hp']))
    simp only [List.map_cons, List.sum_cons, List.length_cons]
    push_cast at h2 ⊢
    nlinarith [h1, h2]

/-- C3: For every terminating call FindPivots(B, S, k, G, dhat) with k > 0 and S
non-empty and duplicate-free, the returned sets satisfy |P| ≤ |W|/k (that is,
k*|P| ≤ |W|); but the claimed |W|/k ≤ |S| holds only when the early exit
`len(W) > k*len(S)` was never taken — when it is taken, FindPivots returns
P = S with k*|S| < |W|, refuting the second inequality. -/
theorem findPivots_pivot_witness_bounds {fuel : ℕ} {B : Dst} {S : NodeSet} {k : ℤ}
    {g : Graph} {dhat : DMap} {P W : NodeSet} {d : DMap}
    (hk : 0 < k) (_hS : S ≠ []) (hSnd : S.Nodup)
    (hres : findPivots fuel B S k g dhat = some (P, W, d)) :
    k * (P.length : ℤ) ≤ (W.length : ℤ) ∧
      ((W.length : ℤ) ≤ k * (S.length : ℤ) ∨
        (P = S ∧ k * (S.length : ℤ) < (W.length : ℤ))) := by
  unfold findPivots at hres
  rw [nsAddAll_nil_eq hSnd] at hres
  cases hfp : fpRounds B g k S k.toNat S dhat S with
  | mk d1 WB =>
    obtain ⟨W1, b⟩ := WB
    rw [hfp] at hres
    cases b with
    | true =>
      simp only [Option.some.injEq, Prod.mk.injEq] at hres
      obtain ⟨rfl, rfl, rfl⟩ := hres
      have hgt := fpRounds_true_bound B g k S k.toNat S dhat S _ _ hfp
      exact ⟨le_of_lt hgt, Or.inr ⟨rfl, hgt⟩⟩
    | false =>
      simp only at hres
      set pc := fpForestNodes g d1 W1 W1 [] [] with hpc
      cases hdfs : fpDfsAll pc.2 pc.1 fuel W1 [] [] with
      | none => rw [hdfs] at hres; simp at hres
      | some pr =>
        obtain ⟨vis2, ts2⟩ := pr
        rw [hdfs] at hres
        simp only [Option.some.injEq, Prod.mk.injEq] at hres
        obtain ⟨rfl, rfl, rfl⟩ := hres
        have hWnd : W1.Nodup := by
          have h0 := fpRounds_W_nodup B g k S k.toNat S dhat S hSnd
          rw [hfp] at h0
          exact h0
        have hI : ForestInv W1 pc.1 pc.2 := by
          rw [hpc]
          exact fpForestNodes_inv (fun _ h => h) (forestInv_nil W1)
        have hITS := fpDfsAll_inv hI hdfs (fun _ h => h)
          (fun x hx => absurd hx (List.not_mem_nil x))
          (fun p m _ h => by simp [alGet?] at h)
        have hPnd : (W1.filter (fun v => decide ((alGet? pc.1 v).isNone ∧
            k ≤ (alGet? ts2 v).getD 0))).Nodup := hWnd.filter _
        have hkF : ∀ p ∈ W1.filter (fun v => decide ((alGet? pc.1 v).isNone ∧
              k ≤ (alGet? ts2 v).getD 0)),
            k ≤ ((W1.countP
              (fun x => decide (chaseRoot pc.1 (fuel + 1) x = some p))) : ℤ) := by
          intro p hp
          rw [List.mem_filter, decide_eq_true_eq] at hp
          obtain ⟨hpW, hpl, hkle⟩ := hp
          have hplnone : alGet? pc.1 p = none := Option.isNone_iff_eq_none.mp hpl
          cases hts : alGet? ts2 p with
          | none => rw [hts] at hkle; simp at hkle; omega
          | some m =>
            rw [hts] at hkle
            simp only [Option.getD_some] at hkle
            exact le_trans hkle (hITS p m hplnone hts)
        have hsum1 := mul_length_le_sum k
          (fun p => W1.countP (fun x => decide (chaseRoot pc.1 (fuel + 1) x = some p)))
          (W1.filter (fun v => decide ((alGet? pc.1 v).isNone ∧
            k ≤ (alGet? ts2 v).getD 0))) hkF
        have hsum2 := sum_countP_fibers_le (fun x => chaseRoot pc.1 (fuel + 1) x)
          (W1.filter (fun v => decide ((alGet? pc.1 v).isNone ∧
            k ≤ (alGet? ts2 v).getD 0))) hPnd W1
        have hSk : (S.length : ℤ) ≤ k * (S.length : ℤ) :=
          le_mul_of_one_le_left (by positivity) (by omega)
        have hWk := fpRounds_false_bound B g k S k.toNat S dhat S _ _ hfp hSk
        exact ⟨le_trans hsum1 (by exact_mod_cast hsum2), Or.inl hWk⟩

/-- Closed instance of the FindPivots bound: the empty-edge graph with S = {0},
k = 1 terminates without the early exit and returns P = {0}, W = {0}. -/
theorem findPivots_pivot_witness_bounds_witness :
    (0 : ℤ) < 1 ∧ ([0] : NodeSet) ≠ [] ∧ ([0] : NodeSet).Nodup ∧
      ((1 : ℤ) * ((([0] : NodeSet).length : ℤ)) ≤ (([0] : NodeSet).length : ℤ) ∧
        ((([0] : NodeSet).length : ℤ) ≤ 1 * (([0] : NodeSet).length : ℤ) ∨
          (([0] : NodeSet) = [0] ∧
            (1 : ℤ) * (([0] : NodeSet).length : ℤ) < (([0] : NodeSet).length : ℤ)))) :=
  ⟨by decide, by decide, by decide,
    @findPivots_pivot_witness_bounds 5 (((10:ℚ) : Dst)) [0] 1 newGraph
      [(0, ((0:ℚ) : Dst))] [0] [0] [(0, ((0:ℚ) : Dst))]
      (by decide) (by decide) (by decide) (by decide)⟩

/-- C3: counterexample — on the one-edge graph 0 → 1 (weight 1) with
S = {0}, k = 1, B = 10, FindPivots takes the early exit and returns
W = {0, 1}: |W| = 2 exceeds k*|S| = 1, refuting the claimed |W|/k ≤ |S|. -/
theorem findPivots_witness_set_exceeds_k_S :
    findPivots 50 (((10:ℚ) : Dst)) [0] 1 (newGraph.addEdge 0 1 ((1:ℚ) : Dst))
        [(0, ((0:ℚ) : Dst)), (1, INF)]
      = some ([0], [0, 1], [(0, ((0:ℚ) : Dst)), (1, ((1:ℚ) : Dst))]) ∧
    ¬ ((([0, 1] : NodeSet).length : ℤ) ≤ 1 * (([0] : NodeSet).length : ℤ)) := by
  constructor
  · decide
  · decide

/-! ### The Δ-stepping BMSSP of bmssp.go and the container/heap Dijkstra of
dijkstra.go, embedded for the cross-implementation comparison. -/

/-- Go `int(dist / q.delta)`: float division then truncation toward zero.  A
non-finite quotient or a negative index (an out-of-range bucket access in Go)
is modelled as none. -/
def bqIdx (delta dist : Dst) : Option ℕ :=
  match dist, delta with
  | (a : ℚ), (b : ℚ) =>
      if b = 0 then none
      else if (a / b : ℚ) < 0 then none
      else some (Int.toNat ((a / b : ℚ).num / (a / b : ℚ).den))
  | _, _ => none

/-- Go bucketQueue: buckets, width delta, scan position minIdx, and the pos
map for decrease-key. -/
structure BQ where
  buckets : List (List NodeID)
  delta : Dst
  minIdx : ℕ
  pos : List (NodeID × ℕ)
deriving Repr

/-- Go newBucketQueue(delta). -/
def newBucketQueue (delta : Dst) : BQ := ⟨[], delta, 0, []⟩

/-- Go (q *bucketQueue) insert(v, dist): grow the bucket slice up to the index,
append v there, record the position. -/
def bqInsert (q : BQ) (v : NodeID) (dist : Dst) : Option BQ :=
  match bqIdx q.delta dist with
  | none => none
  | some idx =>
      let bs := if q.buckets.length ≤ idx
        then q.buckets ++ List.replicate (idx + 1 - q.buckets.length) []
        else q.buckets
      some ⟨bs.set idx (bs.getD idx [] ++ [v]), q.delta, q.minIdx, alSet q.pos v idx⟩

/-- The minIdx-advancing scan of extractMin (`for minIdx < len && empty`). -/
def bqScan : List (List NodeID) → ℕ → Option ℕ
  | [], _ => none
  | b :: rest, i => if b.isEmpty then bqScan rest (i + 1) else some i

/-- Go (q *bucketQueue) extractMin(): first node of the first non-empty bucket
at or after minIdx, FIFO within a bucket; (0, false) when all are empty. -/
def bqExtractMin (q : BQ) : Option NodeID × BQ :=
  match bqScan (q.buckets.drop q.minIdx) q.minIdx with
  | none => (none, ⟨q.buckets, q.delta, q.buckets.length, q.pos⟩)
  | some i =>
      match (q.buckets.getD i []).head? with
      | none => (none, q)
      | some v =>
          (some v, ⟨q.buckets.set i (q.buckets.getD i []).tail, q.delta, i,
            q.pos.filter (fun p => ! decide (p.1 = v))⟩)

/-- Go (q *bucketQueue) decreaseKey(v, newDist): remove the first occurrence of
v from its recorded bucket, then insert at the new distance. -/
def bqDecreaseKey (q : BQ) (v : NodeID) (newDist : Dst) : Option BQ :=
  match alGet? q.pos v with
  | none => bqInsert q v newDist
  | some oldIdx =>
      bqInsert ⟨q.buckets.set oldIdx ((q.buckets.getD oldIdx []).erase v),
        q.delta, q.minIdx, q.pos⟩ v newDist

/-- The edge relaxation of dijkstraDeltaStepping over the out-edges of u. -/
def ddsRelax (u : NodeID) : List Edge → BQ → DMap → Option (BQ × DMap)
  | [], q, dhat => some (q, dhat)
  | e :: rest, q, dhat =>
      if mapGet dhat u + e.w < mapGet dhat e.dst then
        match bqDecreaseKey q e.dst (mapGet dhat u + e.w) with
        | none => none
        | some q' => ddsRelax u rest q' (mapSet dhat e.dst (mapGet dhat u + e.w))
      else ddsRelax u rest q dhat

/-- The main loop of dijkstraDeltaStepping: extract, skip the visited, mark
visited, skip relaxation beyond the bound. -/
def ddsLoop (B : Dst) (g : Graph) : ℕ → BQ → DMap → List NodeID → Option DMap
  | 0, _, _, _ => none
  | fuel + 1, q, dhat, vis =>
      match bqExtractMin q with
      | (none, _) => some dhat
      | (some u, q') =>
          if u ∈ vis then ddsLoop B g fuel q' dhat vis
          else if B < mapGet dhat u then ddsLoop B g fuel q' dhat (u :: vis)
          else
            match ddsRelax u (g.outEdges u) q' dhat with
            | none => none
            | some (q'', dhat') => ddsLoop B g fuel q'' dhat' (u :: vis)

/-- The source-insertion loop of dijkstraDeltaStepping. -/
def ddsInit (dhat : DMap) : List NodeID → BQ → Option BQ
  | [], q => some q
  | v :: vs, q =>
      match bqInsert q v (mapGet dhat v) with
      | none => none
      | some q' => ddsInit dhat vs q'

/-- Go dijkstraDeltaStepping(S, B, G, dhat, delta). -/
def dijkstraDeltaStepping (fuel : ℕ) (S : NodeSet) (B : Dst) (g : Graph)
    (dhat : DMap) (delta : Dst) : Option DMap :=
  match ddsInit dhat S (newBucketQueue delta) with
  | none => none
  | some q => ddsLoop B g fuel q dhat []

/-- Sort a node slice ascending by stored distance (the sort.Slice calls of
medianOfThreePivot; ties in one admissible order). -/
def sortByDist (dhat : DMap) (l : List NodeID) : List NodeID :=
  l.insertionSort (fun a b => mapGet dhat a ≤ mapGet dhat b)

/-- Go medianOfThreePivot(S, dhat). -/
def medianOfThreePivot (S : NodeSet) (dhat : DMap) : NodeID :=
  if S.length ≤ 3 then S.getD (S.length / 2) 0
  else
    ((sortByDist dhat
        [(sortByDist dhat S).getD 0 0,
         (sortByDist dhat S).getD ((sortByDist dhat S).length / 2) 0,
         (sortByDist dhat S).getD ((sortByDist dhat S).length - 1) 0])).getD 1 0

/-- The |bound - B| < 1e-9 check (math.Abs on float64): false whenever an
operand is infinite (the subtraction then yields NaN or ±Inf). -/
def closeTo (x y : Dst) : Prop :=
  match x, y with
  | (a : ℚ), (b : ℚ) => |a - b| < 1 / 1000000000
  | _, _ => False

instance : ∀ x y : Dst, Decidable (closeTo x y) := fun x y => by
  unfold closeTo
  cases x <;> cases y <;> exact inferInstanceAs (Decidable _)

/-- One partition step of BMSSP v1: classify v by dhat into left/right. -/
def partAdd (bound B : Dst) (dhat : DMap) (lr : NodeSet × NodeSet) (v : NodeID) :
    NodeSet × NodeSet :=
  if mapGet dhat v < INF then
    if mapGet dhat v ≤ bound then (nsAdd lr.1 v, lr.2)
    else if mapGet dhat v < B then (lr.1, nsAdd lr.2 v)
    else lr
  else lr

/-- The two partition loops of BMSSP v1: the adjacency keys, then every edge
destination. -/
def bmPartition (bound B : Dst) (g : Graph) (dhat : DMap) : NodeSet × NodeSet :=
  (g.adj.foldl (fun es p => es ++ (p.2.map Edge.dst)) []).foldl
    (partAdd bound B dhat)
    ((g.adj.map Prod.fst).foldl (partAdd bound B dhat) ([], []))

/-- Go BMSSP(B, S, G, dhat) of bmssp.go (the Δ-stepping divide-and-conquer
version).  Go recursion depth is unbounded: fuel, with none for divergence
or a failed Δ-stepping run. -/
def BMSSP (g : Graph) : ℕ → Dst → NodeSet → DMap → Option DMap
  | 0, _, _, _ => none
  | fuel + 1, B, S, dhat =>
      if S.length = 0 then some dhat
      else if S.length = 1 ∨ B ≤ ((1 : ℚ) : Dst) then
        dijkstraDeltaStepping (fuel + 1) S B g dhat ((1 : ℚ) : Dst)
      else if closeTo (min B (mapGet dhat (medianOfThreePivot S dhat))) B then
        dijkstraDeltaStepping (fuel + 1) S B g dhat ((1 : ℚ) : Dst)
      else
        match dijkstraDeltaStepping (fuel + 1) S
            (min B (mapGet dhat (medianOfThreePivot S dhat))) g dhat
            ((1 : ℚ) : Dst) with
        | none => none
        | some dhat1 =>
            match (if 0 < (bmPartition (min B (mapGet dhat (medianOfThreePivot S dhat))) B
                  g dhat1).1.length ∧
                (bmPartition (min B (mapGet dhat (medianOfThreePivot S dhat))) B
                  g dhat1).1.length < S.length then
                BMSSP g fuel (min B (mapGet dhat (medianOfThreePivot S dhat)))
                  (bmPartition (min B (mapGet dhat (medianOfThreePivot S dhat))) B
                    g dhat1).1 dhat1
              else some dhat1) with
            | none => none
            | some dhat2 =>
                if 0 < (bmPartition (min B (mapGet dhat (medianOfThreePivot S dhat))) B
                      g dhat1).2.length ∧
                    (bmPartition (min B (mapGet dhat (medianOfThreePivot S dhat))) B
                      g dhat1).2.length < S.length then
                  BMSSP g fuel B
                    (bmPartition (min B (mapGet dhat (medianOfThreePivot S dhat))) B
                      g dhat1).2 dhat2
                else some dhat2

/-- Go BMSSPSingleSource(G, source, B): initialize every adjacency key and every
edge destination to INF, set the source to 0, run BMSSP from {source}. -/
def BMSSPSingleSource (fuel : ℕ) (g : Graph) (source : NodeID) (B : Dst) :
    Option DMap :=
  BMSSP g fuel B [source]
    (mapSet ((g.adj.foldl (fun es p => es ++ (p.2.map Edge.dst)) []).foldl
        (fun m v => if (alGet? m v).isNone then mapSet m v INF else m)
        (g.adj.foldl (fun m p => mapSet m p.1 INF) []))
      source 0)

/-! #### The container/heap Dijkstra of dijkstra.go.  Items are mutable records
shared by the heap slice and the items map; the model keys their dist and index
fields by node (one item per node) and stores node ids in the heap slice. -/

/-- item.dist of the item of node v. -/
def keyOf (key : List (NodeID × Dst)) (v : NodeID) : Dst := (alGet? key v).getD 0

/-- Go dijkstraHeap.Swap(i, j): swap the slice entries and set both index
fields. -/
def hswap (arr : List NodeID) (idx : List (NodeID × ℤ)) (i j : ℕ) :
    List NodeID × List (NodeID × ℤ) :=
  ((arr.set i (arr.getD j 0)).set j (arr.getD i 0),
    alSet (alSet idx (arr.getD j 0) (i : ℤ)) (arr.getD i 0) (j : ℤ))

/-- Go container/heap up(h, j): sift toward the root while strictly less than
the parent (fuel j+1 suffices since j strictly decreases). -/
def heapUp (key : List (NodeID × Dst)) :
    ℕ → List NodeID → List (NodeID × ℤ) → ℕ → List NodeID × List (NodeID × ℤ)
  | 0, arr, idx, _ => (arr, idx)
  | fuel + 1, arr, idx, j =>
      if j = 0 then (arr, idx)
      else if keyOf key (arr.getD j 0) < keyOf key (arr.getD ((j - 1) / 2) 0) then
        heapUp key fuel (hswap arr idx ((j - 1) / 2) j).1
          (hswap arr idx ((j - 1) / 2) j).2 ((j - 1) / 2)
      else (arr, idx)

/-- The child chosen by container/heap down: the smaller of the two. -/
def hchild (key : List (NodeID × Dst)) (arr : List NodeID) (i n : ℕ) : ℕ :=
  if 2 * i + 2 < n ∧ keyOf key (arr.getD (2 * i + 2) 0)
      < keyOf key (arr.getD (2 * i + 1) 0) then 2 * i + 2
  else 2 * i + 1

/-- Go container/heap down(h, i, n): sift down within the first n entries,
returning the final position (Fix tests whether it moved). -/
def heapDown (key : List (NodeID × Dst)) :
    ℕ → List NodeID → List (NodeID × ℤ) → ℕ → ℕ →
    (List NodeID × List (NodeID × ℤ)) × ℕ
  | 0, arr, idx, i, _ => ((arr, idx), i)
  | fuel + 1, arr, idx, i, n =>
      if n ≤ 2 * i + 1 then ((arr, idx), i)
      else if keyOf key (arr.getD (hchild key arr i n) 0)
          < keyOf key (arr.getD i 0) then
        heapDown key fuel (hswap arr idx i (hchild key arr i n)).1
          (hswap arr idx i (hchild key arr i n)).2 (hchild key arr i n) n
      else ((arr, idx), i)

/-- Go heap.Push: append with index = n, then up at the last slot. -/
def heapPushD (key : List (NodeID × Dst)) (arr : List NodeID)
    (idx : List (NodeID × ℤ)) (v : NodeID) : List NodeID × List (NodeID × ℤ) :=
  heapUp key (arr.length + 1) (arr ++ [v]) (alSet idx v (arr.length : ℤ)) arr.length

/-- Go heap.Pop: swap the root to the end, sift the new root down over the
first n-1 entries, detach the last entry and mark its index -1. -/
def heapPopD (key : List (NodeID × Dst)) (arr : List NodeID)
    (idx : List (NodeID × ℤ)) : Option (NodeID × List NodeID × List (NodeID × ℤ)) :=
  match arr with
  | [] => none
  | _ :: _ =>
      let s1 := hswap arr idx 0 (arr.length - 1)
      let s2 := (heapDown key arr.length s1.1 s1.2 0 (arr.length - 1)).1
      let v := s2.1.getD (arr.length - 1) 0
      some (v, s2.1.take (arr.length - 1), alSet s2.2 v (-1))

/-- Go heap.Fix(h, i): down at i; if it did not move, up at i. -/
def heapFixD (key : List (NodeID × Dst)) (arr : List NodeID)
    (idx : List (NodeID × ℤ)) (i : ℕ) : List NodeID × List (NodeID × ℤ) :=
  if i < (heapDown key arr.length arr idx i arr.length).2 then
    (heapDown key arr.length arr idx i arr.length).1
  else
    heapUp key (i + 1) (heapDown key arr.length arr idx i arr.length).1.1
      (heapDown key arr.length arr idx i arr.length).1.2 i

/-- Go (h *dijkstraHeap) update(item, dist): set item.dist, heap.Fix at its
index (the caller guarantees index >= 0). -/
def dkUpdate (key : List (NodeID × Dst)) (arr : List NodeID)
    (idx : List (NodeID × ℤ)) (v : NodeID) (dist : Dst) :
    List (NodeID × Dst) × List NodeID × List (NodeID × ℤ) :=
  (alSet key v dist,
    heapFixD (alSet key v dist) arr idx (Int.toNat ((alGet? idx v).getD (-1))))

/-- The relaxation loop of Dijkstra over the out-edges of u. -/
def dkRelax (u : NodeID) (vis : List NodeID) :
    List Edge → DMap → List (NodeID × Dst) → List NodeID → List (NodeID × ℤ) →
    DMap × List (NodeID × Dst) × List NodeID × List (NodeID × ℤ)
  | [], dist, key, arr, idx => (dist, key, arr, idx)
  | e :: rest, dist, key, arr, idx =>
      if mapGet dist u + e.w < mapGet dist e.dst then
        if e.dst ∉ vis ∧ 0 ≤ (alGet? idx e.dst).getD (-1) then
          dkRelax u vis rest (mapSet dist e.dst (mapGet dist u + e.w))
            (dkUpdate key arr idx e.dst (mapGet dist u + e.w)).1
            (dkUpdate key arr idx e.dst (mapGet dist u + e.w)).2.1
            (dkUpdate key arr idx e.dst (mapGet dist u + e.w)).2.2
        else
          dkRelax u vis rest (mapSet dist e.dst (mapGet dist u + e.w)) key arr idx
      else dkRelax u vis rest dist key arr idx

/-- The main loop of Dijkstra (`for pq.Len() > 0`). -/
def dkLoop (g : Graph) : ℕ → DMap → List NodeID → List (NodeID × Dst) →
    List NodeID → List (NodeID × ℤ) → Option DMap
  | 0, _, _, _, _, _ => none
  | fuel + 1, dist, vis, key, arr, idx =>
      match heapPopD key arr idx with
      | none => some dist
      | some (u, arr', idx') =>
          if u ∈ vis then dkLoop g fuel dist vis key arr' idx'
          else
            match dkRelax u (u :: vis) (g.outEdges u) dist key arr' idx' with
            | (dist1, key1, arr1, idx1) =>
                dkLoop g fuel dist1 (u :: vis) key1 arr1 idx1

/-- Go Dijkstra(g, source): initialize dist and one item per node (adjacency
keys, then edge destinations), set the source to 0, push every item, loop. -/
def Dijkstra (fuel : ℕ) (g : Graph) (source : NodeID) : Option DMap :=
  match mapSet ((g.adj.foldl (fun es p => es ++ (p.2.map Edge.dst)) []).foldl
      (fun m v => if (alGet? m v).isNone then mapSet m v INF else m)
      (g.adj.foldl (fun m p => mapSet m p.1 INF) [])) source 0 with
  | dist0 =>
      match (dist0.map Prod.fst).foldl
          (fun ai v => heapPushD dist0 ai.1 ai.2 v) ([], []) with
      | (arr0, idx0) => dkLoop g fuel dist0 [] dist0 arr0 idx0

/-- The four-node graph whose weights are all exact binary floats:
0 -(7/8)-> 1, 0 -(1/8)-> 2, 2 -(1/4)-> 1, 1 -(1)-> 3. -/
def cexG : Graph :=
  (((newGraph.addEdge 0 1 ((7/8 : ℚ) : Dst)).addEdge 0 2
      ((1/8 : ℚ) : Dst)).addEdge 2 1 ((1/4 : ℚ) : Dst)).addEdge 1 3 ((1 : ℚ) : Dst)

/-- C1: On the four-node graph cexG with exact binary-float non-negative
weights, source 0 and top-level bound B = 1000 exceeding every finite distance,
BMSSPSingleSource returns dhat[3] = 15/8 while Dijkstra returns d[3] = 11/8
(the true shortest distance, via 0 -> 2 -> 1 -> 3); they differ by 1/2, far
beyond the 1e-9 tolerance.  The Δ-stepping core settles node 1 at its stale
distance 7/8 before the improvement through node 2 arrives and never re-relaxes
the settled node, so the claimed agreement with Dijkstra and with the true
distances is refuted. -/
theorem BMSSPSingleSource_disagrees_with_Dijkstra :
    BMSSPSingleSource 100 cexG 0 ((1000 : ℚ) : Dst)
      = some [(0, ((0 : ℚ) : Dst)), (2, ((1/8 : ℚ) : Dst)), (1, ((3/8 : ℚ) : Dst)),
          (3, ((15/8 : ℚ) : Dst))] ∧
    Dijkstra 100 cexG 0
      = some [(0, ((0 : ℚ) : Dst)), (2, ((1/8 : ℚ) : Dst)), (1, ((3/8 : ℚ) : Dst)),
          (3, ((11/8 : ℚ) : Dst))] ∧
    ¬ closeTo ((15/8 : ℚ) : Dst) ((11/8 : ℚ) : Dst) := by
  refine ⟨by decide, by decide, by decide⟩

/-! ### Correctness of BaseCase: paths, the heap invariant, and the bounded
Dijkstra argument -/

/-- Every node the graph mentions: adjacency keys and edge destinations. -/
def gNodes (g : Graph) : List NodeID :=
  g.adj.map Prod.fst ++ g.adj.foldl (fun es p => es ++ p.2.map Edge.dst) []

/-- Path lengths from x in g along out-edges. -/
inductive Reaches (g : Graph) (x : NodeID) : NodeID → Dst → Prop
  | refl : Reaches g x x 0
  | step {v : NodeID} {d : Dst} {e : Edge} :
      Reaches g x v d → e ∈ g.outEdges v → Reaches g x e.dst (d + e.w)

/-- d is the shortest-path distance from x to v in g. -/
def IsShortest (g : Graph) (x v : NodeID) (d : Dst) : Prop :=
  Reaches g x v d ∧ ∀ d', Reaches g x v d' → d ≤ d'

theorem mem_foldl_append {α β : Type} (f : β → List α) :
    ∀ (l : List β) (acc : List α) (a : α),
      (a ∈ l.foldl (fun es p => es ++ f p) acc ↔ a ∈ acc ∨ ∃ p ∈ l, a ∈ f p) := by
  intro l
  induction l with
  | nil => intro acc a; simp
  | cons b bs ih =>
    intro acc a
    rw [List.foldl_cons, ih]
    simp only [List.mem_append, List.mem_cons]
    constructor
    · rintro ((h | h) | ⟨p, hp, hap⟩)
      · exact Or.inl h
      · exact Or.inr ⟨b, Or.inl rfl, h⟩
      · exact Or.inr ⟨p, Or.inr hp, hap⟩
    · rintro (h | ⟨p, (rfl | hp), hap⟩)
      · exact Or.inl (Or.inl h)
      · exact Or.inl (Or.inr hap)
      · exact Or.inr ⟨p, hp, hap⟩

theorem edge_dst_mem_gNodes {g : Graph} {u : NodeID} {e : Edge}
    (he : e ∈ g.outEdges u) : e.dst ∈ gNodes g := by
  unfold Graph.outEdges at he
  cases hu : alGet? g.adj u with
  | none => rw [hu] at he; simp at he
  | some es =>
    rw [hu] at he
    simp only [Option.getD_some] at he
    refine List.mem_append.mpr (Or.inr ?_)
    rw [mem_foldl_append]
    exact Or.inr ⟨(u, es), alGet?_mem hu, List.mem_map.mpr ⟨e, he, rfl⟩⟩

/-! #### Heap slice index and membership lemmas -/

theorem hGet_eq_getElem {h : List Pair} {n : ℕ} (hn : n < h.length) :
    hGet h n = h[n] := by
  unfold hGet
  rw [List.getD_eq_getElem?_getD, List.getElem?_eq_getElem hn]
  rfl

theorem hSwap_length (h : List Pair) (i j : ℕ) : (hSwap h i j).length = h.length := by
  simp [hSwap]

theorem hGet_hSwap (h : List Pair) (i j t : ℕ) (hi : i < h.length)
    (hj : j < h.length) :
    hGet (hSwap h i j) t =
      if t = j then hGet h i else if t = i then hGet h j else hGet h t := by
  by_cases htj : t = j
  · subst htj
    rw [if_pos rfl, hGet_eq_getElem (show t < (hSwap h i t).length by
      rw [hSwap_length]; exact hj)]
    unfold hSwap
    rw [List.getElem_set_self, hGet_eq_getElem hi]
  · rw [if_neg htj]
    by_cases hti : t = i
    · subst hti
      rw [if_pos rfl, hGet_eq_getElem (show t < (hSwap h t j).length by
        rw [hSwap_length]; exact hi)]
      unfold hSwap
      rw [List.getElem_set_ne (by omega), List.getElem_set_self, hGet_eq_getElem hj]
    · rw [if_neg hti]
      by_cases htl : t < h.length
      · rw [hGet_eq_getElem (show t < (hSwap h i j).length by
          rw [hSwap_length]; exact htl), hGet_eq_getElem htl]
        unfold hSwap
        rw [List.getElem_set_ne (by omega), List.getElem_set_ne (by omega)]
      · unfold hGet
        rw [List.getD_eq_getElem?_getD, List.getD_eq_getElem?_getD,
          List.getElem?_eq_none (show h.length ≤ t by omega),
          List.getElem?_eq_none (show (hSwap h i j).length ≤ t by
            rw [hSwap_length]; omega)]

theorem hGet_hSwap_fst {h : List Pair} {i j : ℕ} (hi : i < h.length)
    (hj : j < h.length) : hGet (hSwap h i j) i = hGet h j := by
  rw [hGet_hSwap h i j i hi hj]
  by_cases hij : i = j
  · rw [if_pos hij, hij]
  · rw [if_neg hij, if_pos rfl]

theorem hGet_hSwap_snd {h : List Pair} {i j : ℕ} (hi : i < h.length)
    (hj : j < h.length) : hGet (hSwap h i j) j = hGet h i := by
  rw [hGet_hSwap h i j j hi hj, if_pos rfl]

theorem hGet_hSwap_other {h : List Pair} {i j t : ℕ} (hi : i < h.length)
    (hj : j < h.length) (hti : t ≠ i) (htj : t ≠ j) :
    hGet (hSwap h i j) t = hGet h t := by
  rw [hGet_hSwap h i j t hi hj, if_neg htj, if_neg hti]

theorem mem_hSwap_of_mem {h : List Pair} {i j : ℕ} (hi : i < h.length)
    (hj : j < h.length) {p : Pair} (hp : p ∈ h) : p ∈ hSwap h i j := by
  obtain ⟨t, ht, rfl⟩ := List.mem_iff_getElem.mp hp
  by_cases hti : t = i
  · subst hti
    refine List.mem_iff_getElem.mpr ⟨j, by rw [hSwap_length]; exact hj, ?_⟩
    rw [← hGet_eq_getElem (show j < (hSwap h t j).length by
      rw [hSwap_length]; exact hj), hGet_hSwap_snd ht hj, hGet_eq_getElem ht]
  · by_cases htj : t = j
    · subst htj
      refine List.mem_iff_getElem.mpr ⟨i, by rw [hSwap_length]; exact hi, ?_⟩
      rw [← hGet_eq_getElem (show i < (hSwap h i t).length by
        rw [hSwap_length]; exact hi), hGet_hSwap_fst hi ht, hGet_eq_getElem ht]
    · refine List.mem_iff_getElem.mpr ⟨t, by rw [hSwap_length]; exact ht, ?_⟩
      rw [← hGet_eq_getElem (show t < (hSwap h i j).length by
        rw [hSwap_length]; exact ht), hGet_hSwap_other hi hj hti htj,
        hGet_eq_getElem ht]

theorem mem_of_mem_hSwap {h : List Pair} {i j : ℕ} (hi : i < h.length)
    (hj : j < h.length) {p : Pair} (hp : p ∈ hSwap h i j) : p ∈ h := by
  unfold hSwap at hp
  rcases List.mem_or_eq_of_mem_set hp with hp1 | rfl
  · rcases List.mem_or_eq_of_mem_set hp1 with hp2 | rfl
    · exact hp2
    · rw [hGet_eq_getElem hj]
      exact List.getElem_mem _
  · rw [hGet_eq_getElem hi]
    exact List.getElem_mem _

theorem mem_siftUpF {p : Pair} :
    ∀ {fuel : ℕ} {h : List Pair} {i : ℕ}, i < h.length →
      (p ∈ siftUpF fuel h i ↔ p ∈ h) := by
  intro fuel
  induction fuel with
  | zero => intro h i _; exact Iff.rfl
  | succ fuel ih =>
    intro h i hi
    unfold siftUpF
    by_cases hz : i = 0
    · rw [if_pos hz]
    · rw [if_neg hz]
      by_cases hord : (hGet h ((i - 1) / 2)).d ≤ (hGet h i).d
      · rw [if_pos hord]
      · rw [if_neg hord]
        have hpar : (i - 1) / 2 < h.length := by omega
        rw [ih (by rw [hSwap_length]; omega)]
        exact ⟨mem_of_mem_hSwap hpar hi, mem_hSwap_of_mem hpar hi⟩

theorem smallestIdx_ne_lt {h : List Pair} {i : ℕ} (hne : smallestIdx h i ≠ i) :
    i < h.length ∧ smallestIdx h i < h.length ∧
      (smallestIdx h i = 2 * i + 1 ∨ smallestIdx h i = 2 * i + 2) := by
  unfold smallestIdx smallest1 at hne ⊢
  by_cases h1 : 2 * i + 1 < h.length ∧ (hGet h (2 * i + 1)).d < (hGet h i).d
  · rw [if_pos h1] at hne ⊢
    by_cases h2 : 2 * i + 2 < h.length ∧
        (hGet h (2 * i + 2)).d < (hGet h (2 * i + 1)).d
    · rw [if_pos h2] at hne ⊢
      exact ⟨by omega, h2.1, Or.inr rfl⟩
    · rw [if_neg h2] at hne ⊢
      exact ⟨by omega, h1.1, Or.inl rfl⟩
  · rw [if_neg h1] at hne ⊢
    by_cases h2 : 2 * i + 2 < h.length ∧ (hGet h (2 * i + 2)).d < (hGet h i).d
    · rw [if_pos h2] at hne ⊢
      exact ⟨by omega, h2.1, Or.inr rfl⟩
    · rw [if_neg h2] at hne ⊢
      exact absurd rfl hne

theorem smallestIdx_le (h : List Pair) (i : ℕ) :
    (hGet h (smallestIdx h i)).d ≤ (hGet h i).d ∧
      (2 * i + 1 < h.length → (hGet h (smallestIdx h i)).d ≤ (hGet h (2 * i + 1)).d) ∧
      (2 * i + 2 < h.length → (hGet h (smallestIdx h i)).d ≤ (hGet h (2 * i + 2)).d) := by
  unfold smallestIdx smallest1
  by_cases h1 : 2 * i + 1 < h.length ∧ (hGet h (2 * i + 1)).d < (hGet h i).d
  · rw [if_pos h1]
    by_cases h2 : 2 * i + 2 < h.length ∧
        (hGet h (2 * i + 2)).d < (hGet h (2 * i + 1)).d
    · rw [if_pos h2]
      exact ⟨le_of_lt (lt_trans h2.2 h1.2), fun _ => le_of_lt h2.2, fun _ => le_refl _⟩
    · rw [if_neg h2]
      refine ⟨le_of_lt h1.2, fun _ => le_refl _, fun hr => ?_⟩
      rcases Decidable.not_and_iff_or_not.mp h2 with hc | hc
      · exact absurd hr hc
      · exact not_lt.mp hc
  · rw [if_neg h1]
    by_cases h2 : 2 * i + 2 < h.length ∧ (hGet h (2 * i + 2)).d < (hGet h i).d
    · rw [if_pos h2]
      refine ⟨le_of_lt h2.2, fun hl => ?_, fun _ => le_refl _⟩
      have hc : ¬ (hGet h (2 * i + 1)).d < (hGet h i).d := fun hc => h1 ⟨hl, hc⟩
      exact le_trans (le_of_lt h2.2) (not_lt.mp hc)
    · rw [if_neg h2]
      refine ⟨le_refl _, fun hl => ?_, fun hr => ?_⟩
      · have hc : ¬ (hGet h (2 * i + 1)).d < (hGet h i).d := fun hc => h1 ⟨hl, hc⟩
        exact not_lt.mp hc
      · have hc : ¬ (hGet h (2 * i + 2)).d < (hGet h i).d := fun hc => h2 ⟨hr, hc⟩
        exact not_lt.mp hc

theorem mem_siftDownF {p : Pair} :
    ∀ {fuel : ℕ} {h : List Pair} {i : ℕ}, (p ∈ siftDownF fuel h i ↔ p ∈ h) := by
  intro fuel
  induction fuel with
  | zero => intro h i; exact Iff.rfl
  | succ fuel ih =>
    intro h i
    unfold siftDownF
    by_cases hne : smallestIdx h i = i
    · rw [if_pos hne]
    · rw [if_neg hne]
      obtain ⟨hi, hm, -⟩ := smallestIdx_ne_lt hne
      rw [ih]
      exact ⟨mem_of_mem_hSwap hi hm, mem_hSwap_of_mem hi hm⟩

theorem siftDownF_length :
    ∀ {fuel : ℕ} {h : List Pair} {i : ℕ}, (siftDownF fuel h i).length = h.length := by
  intro fuel
  induction fuel with
  | zero => intro h i; rfl
  | succ fuel ih =>
    intro h i
    unfold siftDownF
    by_cases hne : smallestIdx h i = i
    · rw [if_pos hne]
    · rw [if_neg hne, ih, hSwap_length]

theorem mem_hpush {h : List Pair} {x p : Pair} : p ∈ hpush h x ↔ p ∈ h ∨ p = x := by
  unfold hpush
  rw [mem_siftUpF (by simp)]
  simp

theorem hpop_eq {h : List Pair} {it : Pair} {h' : List Pair}
    (hres : hpop h = some (it, h')) :
    ∃ rest, h = it :: rest ∧
      h' = siftDownF ((h.set 0 (hGet h (h.length - 1))).dropLast).length
        ((h.set 0 (hGet h (h.length - 1))).dropLast) 0 := by
  unfold hpop at hres
  cases h with
  | nil => simp at hres
  | cons q rest =>
    simp only [Option.some.injEq, Prod.mk.injEq] at hres
    obtain ⟨rfl, rfl⟩ := hres
    exact ⟨rest, rfl, rfl⟩

theorem hpop_mem_self {h : List Pair} {it : Pair} {h' : List Pair}
    (hres : hpop h = some (it, h')) : it ∈ h := by
  obtain ⟨rest, rfl, -⟩ := hpop_eq hres
  simp

theorem mem_of_hpop {h : List Pair} {it : Pair} {h' : List Pair}
    (hres : hpop h = some (it, h')) {p : Pair} (hp : p ∈ h') : p ∈ h := by
  obtain ⟨rest, heq, rfl⟩ := hpop_eq hres
  rw [mem_siftDownF] at hp
  have hsub := (List.dropLast_sublist (h.set 0 (hGet h (h.length - 1)))).subset hp
  rcases List.mem_or_eq_of_mem_set hsub with hm | rfl
  · exact hm
  · rw [hGet_eq_getElem (show h.length - 1 < h.length by rw [heq]; simp)]
    exact List.getElem_mem _

theorem hpop_mem_of_ne {h : List Pair} {it : Pair} {h' : List Pair}
    (hres : hpop h = some (it, h')) {p : Pair} (hp : p ∈ h) (hne : p ≠ it) :
    p ∈ h' := by
  obtain ⟨rest, heq, rfl⟩ := hpop_eq hres
  subst heq
  rw [mem_siftDownF]
  obtain ⟨t, ht, rfl⟩ := List.mem_iff_getElem.mp hp
  have hlen : (it :: rest).length = rest.length + 1 := by simp
  have ht0 : t ≠ 0 := by
    intro hcontra
    subst hcontra
    exact hne rfl
  by_cases htl : t < (it :: rest).length - 1
  · refine List.mem_iff_getElem.mpr ⟨t, by simp; omega, ?_⟩
    rw [List.getElem_dropLast, List.getElem_set_ne (by omega)]
  · have hteq : t = (it :: rest).length - 1 := by omega
    refine List.mem_iff_getElem.mpr ⟨0, by simp; omega, ?_⟩
    rw [List.getElem_dropLast, List.getElem_set_self,
      hGet_eq_getElem (show (it :: rest).length - 1 < (it :: rest).length by
        rw [hlen]; omega)]
    subst hteq
    rfl

/-- The binary min-heap property of the inline heap slice of BaseCase. -/
def IsMinHeap (h : List Pair) : Prop :=
  ∀ j, 0 < j → j < h.length → (hGet h ((j - 1) / 2)).d ≤ (hGet h j).d

theorem IsMinHeap.root_le {h : List Pair} (hh : IsMinHeap h) :
    ∀ j, j < h.length → (hGet h 0).d ≤ (hGet h j).d := by
  intro j
  induction j using Nat.strong_induction_on with
  | _ j ih =>
    intro hj
    rcases Nat.eq_zero_or_pos j with rfl | hpos
    · exact le_refl _
    · exact le_trans (ih ((j - 1) / 2) (by omega) (by omega)) (hh j hpos hj)

theorem heap_head_min {h : List Pair} (hh : IsMinHeap h) {p : Pair} (hp : p ∈ h) :
    (hGet h 0).d ≤ p.d := by
  obtain ⟨t, ht, rfl⟩ := List.mem_iff_getElem.mp hp
  rw [← hGet_eq_getElem ht]
  exact hh.root_le t ht

/-- Sift-up establishes the heap property from the almost-heap state: every
parent edge holds except possibly the one into i, and the would-be grandparent
dominates the children of i. -/
theorem siftUpF_heap :
    ∀ (fuel : ℕ) (h : List Pair) (i : ℕ), i < fuel → i < h.length →
      (∀ j, 0 < j → j < h.length → j ≠ i →
        (hGet h ((j - 1) / 2)).d ≤ (hGet h j).d) →
      (∀ j, 0 < j → j < h.length → (j - 1) / 2 = i → 0 < i →
        (hGet h ((i - 1) / 2)).d ≤ (hGet h j).d) →
      IsMinHeap (siftUpF fuel h i) := by
  intro fuel
  induction fuel with
  | zero => intro h i hif; omega
  | succ fuel ih =>
    intro h i hif hi h1 h2
    unfold siftUpF
    by_cases hz : i = 0
    · rw [if_pos hz]
      intro j hj0 hjl
      exact h1 j hj0 hjl (by omega)
    · rw [if_neg hz]
      by_cases hord : (hGet h ((i - 1) / 2)).d ≤ (hGet h i).d
      · rw [if_pos hord]
        intro j hj0 hjl
        by_cases hji : j = i
        · subst hji; exact hord
        · exact h1 j hj0 hjl hji
      · rw [if_neg hord]
        have hpl : (i - 1) / 2 < h.length := by omega
        apply ih _ _ (by omega) (by rw [hSwap_length]; exact hpl)
        · intro j hj0 hjl0 hjp
          have hjl : j < h.length := by rw [hSwap_length] at hjl0; exact hjl0
          by_cases hji : j = i
          · subst hji
            rw [hGet_hSwap_fst hpl hi, hGet_hSwap_snd hpl hi]
            exact le_of_lt (not_le.mp hord)
          · have hjother : hGet (hSwap h ((i - 1) / 2) i) j = hGet h j :=
              hGet_hSwap_other hpl hi hjp hji
            by_cases hpp : (j - 1) / 2 = (i - 1) / 2
            · rw [hpp, hGet_hSwap_fst hpl hi, hjother]
              exact le_trans (le_of_lt (not_le.mp hord)) (hpp ▸ h1 j hj0 hjl hji)
            · by_cases hpi : (j - 1) / 2 = i
              · rw [hpi, hGet_hSwap_snd hpl hi, hjother]
                exact h2 j hj0 hjl hpi (by omega)
              · rw [hGet_hSwap_other hpl hi hpp hpi, hjother]
                exact h1 j hj0 hjl hji
        · intro j hj0 hjl0 hjpar hp0
          have hjl : j < h.length := by rw [hSwap_length] at hjl0; exact hjl0
          have hq1 : ((i - 1) / 2 - 1) / 2 ≠ (i - 1) / 2 := by omega
          have hq2 : ((i - 1) / 2 - 1) / 2 ≠ i := by omega
          rw [hGet_hSwap_other hpl hi hq1 hq2]
          have hbase : (hGet h (((i - 1) / 2 - 1) / 2)).d ≤ (hGet h ((i - 1) / 2)).d :=
            h1 ((i - 1) / 2) hp0 hpl (by omega)
          by_cases hji : j = i
          · subst hji
            rw [hGet_hSwap_snd hpl hi]
            exact hbase
          · rw [hGet_hSwap_other hpl hi (by omega) hji]
            have hstep := h1 j hj0 hjl hji
            rw [hjpar] at hstep
            exact le_trans hbase hstep

theorem hGet_append_left {h t : List Pair} {n : ℕ} (hn : n < h.length) :
    hGet (h ++ t) n = hGet h n := by
  have hn2 : n < (h ++ t).length := by simp; omega
  rw [hGet_eq_getElem hn2, hGet_eq_getElem hn]
  exact List.getElem_append_left hn

theorem hpush_heap {h : List Pair} (hh : IsMinHeap h) (x : Pair) :
    IsMinHeap (hpush h x) := by
  unfold hpush
  apply siftUpF_heap _ _ _ (by omega) (by simp)
  · intro j hj0 hjl hne
    have hjlen : j < h.length := by simp at hjl; omega
    have hpar : (j - 1) / 2 < h.length := by omega
    rw [hGet_append_left hjlen, hGet_append_left hpar]
    exact hh j hj0 hjlen
  · intro j hj0 hjl hpar _
    exfalso
    simp at hjl
    omega

/-- Sift-down establishes the heap property from the almost-heap state: every
parent edge holds except possibly those out of i, and the parent of i
dominates the children of i. -/
theorem siftDownF_heap :
    ∀ (fuel : ℕ) (h : List Pair) (i : ℕ), h.length ≤ fuel + i →
      (∀ j, 0 < j → j < h.length → (j - 1) / 2 ≠ i →
        (hGet h ((j - 1) / 2)).d ≤ (hGet h j).d) →
      (∀ j, 0 < j → j < h.length → (j - 1) / 2 = i → 0 < i →
        (hGet h ((i - 1) / 2)).d ≤ (hGet h j).d) →
      IsMinHeap (siftDownF fuel h i) := by
  intro fuel
  induction fuel with
  | zero =>
    intro h i hfi h1 h2
    show IsMinHeap h
    intro j hj0 hjl
    by_cases hji : (j - 1) / 2 = i
    · omega
    · exact h1 j hj0 hjl hji
  | succ fuel ih =>
    intro h i hfi h1 h2
    unfold siftDownF
    by_cases hstop : smallestIdx h i = i
    · rw [if_pos hstop]
      intro j hj0 hjl
      by_cases hji : (j - 1) / 2 = i
      · obtain ⟨hle, hc1, hc2⟩ := smallestIdx_le h i
        rw [hstop] at hc1 hc2
        rw [hji]
        have hj12 : j = 2 * i + 1 ∨ j = 2 * i + 2 := by omega
        rcases hj12 with rfl | rfl
        · exact hc1 hjl
        · exact hc2 hjl
      · exact h1 j hj0 hjl hji
    · rw [if_neg hstop]
      obtain ⟨hi, hm, hm12⟩ := smallestIdx_ne_lt hstop
      obtain ⟨hle, hc1, hc2⟩ := smallestIdx_le h i
      have hparm : (smallestIdx h i - 1) / 2 = i := by omega
      have hmne : i ≠ smallestIdx h i := fun hc => hstop hc.symm
      apply ih _ _ (by rw [hSwap_length]; omega)
      · intro j hj0 hjl0 hjne
        have hjl : j < h.length := by rw [hSwap_length] at hjl0; exact hjl0
        by_cases hjm : j = smallestIdx h i
        · subst hjm
          rw [hparm, hGet_hSwap_fst hi hm, hGet_hSwap_snd hi hm]
          exact hle
        · by_cases hji : j = i
          · subst hji
            have hq1 : (j - 1) / 2 ≠ j := by omega
            have hq2 : (j - 1) / 2 ≠ smallestIdx h j := by omega
            rw [hGet_hSwap_other hi hm hq1 hq2, hGet_hSwap_fst hi hm]
            exact h2 (smallestIdx h j) (by omega) hm hparm hj0
          · by_cases hpi : (j - 1) / 2 = i
            · rw [hpi, hGet_hSwap_fst hi hm,
                hGet_hSwap_other hi hm hji hjm]
              have hj12 : j = 2 * i + 1 ∨ j = 2 * i + 2 := by omega
              rcases hj12 with rfl | rfl
              · exact hc1 hjl
              · exact hc2 hjl
            · rw [hGet_hSwap_other hi hm hpi hjne,
                hGet_hSwap_other hi hm hji hjm]
              exact h1 j hj0 hjl hpi
      · intro j hj0 hjl0 hjpar hm0
        have hjl : j < h.length := by rw [hSwap_length] at hjl0; exact hjl0
        rw [hparm, hGet_hSwap_fst hi hm]
        have hji : j ≠ i := by omega
        have hjm : j ≠ smallestIdx h i := by omega
        rw [hGet_hSwap_other hi hm hji hjm]
        have := h1 j hj0 hjl (by omega)
        rw [hjpar] at this
        exact this

theorem hpop_heap {h : List Pair} {it : Pair} {h' : List Pair}
    (hh : IsMinHeap h) (hres : hpop h = some (it, h')) : IsMinHeap h' := by
  obtain ⟨rest, heq, rfl⟩ := hpop_eq hres
  apply siftDownF_heap _ _ 0 (by omega)
  · intro j hj0 hjl hne
    have hlen : ((h.set 0 (hGet h (h.length - 1))).dropLast).length = h.length - 1 := by
      simp
    have hval : ∀ t, 0 < t → t < h.length - 1 →
        hGet ((h.set 0 (hGet h (h.length - 1))).dropLast) t = hGet h t := by
      intro t ht0 htl
      rw [hGet_eq_getElem (by rw [hlen]; omega)]
      simp only [List.getElem_dropLast]
      rw [List.getElem_set_ne (by omega)]
      exact (hGet_eq_getElem (show t < h.length by omega)).symm
    rw [hlen] at hjl
    rw [hval j hj0 hjl, hval ((j - 1) / 2) (by omega) (by omega)]
    exact hh j hj0 (by omega)
  · intro j hj0 hjl hpar h0
    exact absurd h0 (lt_irrefl 0)

theorem hpop_min {h : List Pair} {it : Pair} {h' : List Pair}
    (hh : IsMinHeap h) (hres : hpop h = some (it, h')) :
    ∀ p ∈ h, it.d ≤ p.d := by
  obtain ⟨rest, heq, -⟩ := hpop_eq hres
  intro p hp
  have hmin := heap_head_min hh hp
  rw [heq] at hmin
  simpa [hGet] using hmin

/-- The invariant bundle of the BaseCase main loop.  U0 is also the visited
set (the two are updated identically).  Settled vertices carry their exact
shortest distance below B; heap keys are realizable path lengths below B, at
least the stored distance of their vertex; every touched unsettled vertex has
its current stored distance present as a heap key; settled out-edges are
relaxed or cut off at B. -/
structure BCCore (g : Graph) (x : NodeID) (B : Dst) (h : List Pair) (dhat : DMap)
    (U0 : NodeSet) : Prop where
  heap : IsMinHeap h
  sReach : ∀ v ∈ U0, Reaches g x v (mapGet dhat v)
  sMin : ∀ v ∈ U0, ∀ d', Reaches g x v d' → mapGet dhat v ≤ d'
  sLt : ∀ v ∈ U0, mapGet dhat v < B
  kReach : ∀ p ∈ h, Reaches g x p.v p.d
  kGe : ∀ p ∈ h, mapGet dhat p.v ≤ p.d
  kLt : ∀ p ∈ h, p.d < B
  kDom : ∀ p ∈ h, (alGet? dhat p.v).isSome
  tKey : ∀ v, v ∉ U0 → ∀ d0, alGet? dhat v = some d0 → d0 ≠ INF →
      (⟨v, d0⟩ : Pair) ∈ h
  xzero : alGet? dhat x = some 0
  dom : ∀ v ∈ gNodes g, (alGet? dhat v).isSome
  dnn : ∀ v, (0 : Dst) ≤ mapGet dhat v

structure BCInv (g : Graph) (x : NodeID) (B : Dst) (h : List Pair) (dhat : DMap)
    (U0 : NodeSet) extends BCCore g x B h dhat U0 : Prop where
  frontier : ∀ u ∈ U0, ∀ e ∈ g.outEdges u,
      B ≤ mapGet dhat u + e.w ∨ mapGet dhat e.dst ≤ mapGet dhat u + e.w

/-- The cut argument: with the invariant in force and dv a lower bound on every
heap key, every path from x either ends settled at no less than the stored
distance, or ends unsettled at no less than dv (or beyond B, where the
relaxation is cut off). -/
theorem bc_cut {g : Graph} {x : NodeID} {B : Dst} {h : List Pair} {dhat : DMap}
    {U0 : NodeSet} (hw : WNN g) (inv : BCInv g x B h dhat U0) {dv : Dst}
    (hmin : ∀ p ∈ h, dv ≤ p.d) :
    ∀ {u : NodeID} {d' : Dst}, Reaches g x u d' →
      (u ∈ U0 → mapGet dhat u ≤ d') ∧ (u ∉ U0 → dv ≤ d' ∨ B ≤ d') := by
  intro u d' hr
  induction hr with
  | refl =>
    constructor
    · intro hx
      exact inv.sMin x hx 0 Reaches.refl
    · intro hx
      left
      have hk := inv.tKey x hx 0 inv.xzero (by decide)
      exact hmin _ hk
  | @step v d1 e hr1 he ih =>
    have hw0 : (0 : Dst) ≤ e.w := hw.outEdges v e he
    constructor
    · intro hmem
      exact inv.sMin _ hmem _ (Reaches.step hr1 he)
    · intro hnmem
      by_cases hvU : v ∈ U0
      · have hdu : mapGet dhat v ≤ d1 := ih.1 hvU
        rcases inv.frontier v hvU e he with hB | hle
        · right
          calc B ≤ mapGet dhat v + e.w := hB
            _ ≤ d1 + e.w := add_le_add_right hdu e.w
        · by_cases hBd : B ≤ d1 + e.w
          · right; exact hBd
          · left
            have hlt : d1 + e.w < B := not_le.mp hBd
            have hfin : mapGet dhat e.dst < ⊤ := by
              calc mapGet dhat e.dst ≤ mapGet dhat v + e.w := hle
                _ ≤ d1 + e.w := add_le_add_right hdu e.w
                _ < B := hlt
                _ ≤ ⊤ := le_top
            obtain ⟨d0, hd0⟩ := Option.isSome_iff_exists.mp
              (inv.dom e.dst (edge_dst_mem_gNodes he))
            have hd0v : mapGet dhat e.dst = d0 := by simp [mapGet, hd0]
            have hkey := inv.tKey e.dst hnmem d0 hd0 (by
              intro hcontra
              rw [hcontra] at hd0
              rw [hd0v, hcontra] at hfin
              exact lt_irrefl _ hfin)
            calc dv ≤ d0 := hmin _ hkey
              _ = mapGet dhat e.dst := hd0v.symm
              _ ≤ mapGet dhat v + e.w := hle
              _ ≤ d1 + e.w := add_le_add_right hdu e.w
      · rcases ih.2 hvU with hdv | hB
        · left; exact le_trans hdv (le_add_of_nonneg_right hw0)
        · right; exact le_trans hB (le_add_of_nonneg_right hw0)

theorem alGet?_mapSet (m : DMap) (v w : NodeID) (d : Dst) :
    alGet? (mapSet m v d) w = if v = w then some d else alGet? m w :=
  alGet?_alSet m v w d

/-- The edge-relaxation loop of BaseCase preserves the core invariant, leaves
every settled distance unchanged, only lowers stored distances, and leaves each
out-edge of the settling vertex relaxed or cut off at B. -/
theorem bcRelax_inv {g : Graph} {x : NodeID} {B : Dst} (hw : WNN g)
    {v : NodeID} {dv : Dst} {U0 : NodeSet}
    (hvr : Reaches g x v dv) (hvU : v ∈ U0) :
    ∀ (edges : List Edge) (h : List Pair) (dhat : DMap),
      (∀ e ∈ edges, e ∈ g.outEdges v) →
      mapGet dhat v = dv →
      BCCore g x B h dhat U0 →
      (∀ e ∈ g.outEdges v, e ∉ edges →
        B ≤ dv + e.w ∨ mapGet dhat e.dst ≤ dv + e.w) →
      (∀ w ∈ U0, mapGet (bcRelax B dv edges h dhat).2 w = mapGet dhat w) ∧
      (∀ w, mapGet (bcRelax B dv edges h dhat).2 w ≤ mapGet dhat w) ∧
      BCCore g x B (bcRelax B dv edges h dhat).1 (bcRelax B dv edges h dhat).2 U0 ∧
      (∀ e ∈ g.outEdges v,
        B ≤ dv + e.w ∨ mapGet (bcRelax B dv edges h dhat).2 e.dst ≤ dv + e.w) := by
  intro edges
  induction edges with
  | nil =>
    intro h dhat hsub hmv core hproc
    exact ⟨fun w _ => rfl, fun w => le_refl _, core,
      fun e he => hproc e he (by simp)⟩
  | cons e rest ih =>
    intro h dhat hsub hmv core hproc
    have hev : e ∈ g.outEdges v := hsub e (by simp)
    have hw0 : (0 : Dst) ≤ e.w := hw.outEdges v e hev
    have hdv0 : (0 : Dst) ≤ dv := hmv ▸ core.dnn v
    unfold bcRelax
    by_cases hcond : dv + e.w < mapGet dhat e.dst ∧ dv + e.w < B
    · rw [if_pos hcond]
      have hstep : Reaches g x e.dst (dv + e.w) := Reaches.step hvr hev
      have hdstU : e.dst ∉ U0 := by
        intro hcontra
        exact absurd hcond.1 (not_lt.mpr (core.sMin e.dst hcontra _ hstep))
      have hdstv : e.dst ≠ v := fun hc => hdstU (hc ▸ hvU)
      have hnd0 : (0 : Dst) ≤ dv + e.w := add_nonneg hdv0 hw0
      have hdstx : e.dst ≠ x := by
        intro hc
        have hx0 : mapGet dhat x = 0 := by simp [mapGet, core.xzero]
        rw [hc, hx0] at hcond
        exact absurd hcond.1 (not_lt.mpr hnd0)
      have hkeep : ∀ w, w ≠ e.dst →
          mapGet (mapSet dhat e.dst (dv + e.w)) w = mapGet dhat w := by
        intro w hne
        rw [mapGet_mapSet, if_neg (fun hc => hne hc.symm)]
      have hmv' : mapGet (mapSet dhat e.dst (dv + e.w)) v = dv :=
        (hkeep v (fun hc => hdstv hc.symm)).trans hmv
      have hmono : ∀ w, mapGet (mapSet dhat e.dst (dv + e.w)) w ≤ mapGet dhat w := by
        intro w
        rw [mapGet_mapSet]
        by_cases hwe : e.dst = w
        · rw [if_pos hwe, ← hwe]
          exact le_of_lt hcond.1
        · rw [if_neg hwe]
      have core' : BCCore g x B (hpush h ⟨e.dst, dv + e.w⟩)
          (mapSet dhat e.dst (dv + e.w)) U0 := by
        constructor
        · exact hpush_heap core.heap _
        · intro w hwU
          rw [hkeep w (fun hc => hdstU (hc ▸ hwU))]
          exact core.sReach w hwU
        · intro w hwU d' hd'
          rw [hkeep w (fun hc => hdstU (hc ▸ hwU))]
          exact core.sMin w hwU d' hd'
        · intro w hwU
          rw [hkeep w (fun hc => hdstU (hc ▸ hwU))]
          exact core.sLt w hwU
        · intro p hp
          rcases mem_hpush.mp hp with hm | rfl
          · exact core.kReach p hm
          · exact hstep
        · intro p hp
          rcases mem_hpush.mp hp with hm | rfl
          · exact le_trans (hmono p.v) (core.kGe p hm)
          · show mapGet (mapSet dhat e.dst (dv + e.w)) e.dst ≤ dv + e.w
            rw [mapGet_mapSet, if_pos rfl]
        · intro p hp
          rcases mem_hpush.mp hp with hm | rfl
          · exact core.kLt p hm
          · exact hcond.2
        · intro p hp
          rcases mem_hpush.mp hp with hm | rfl
          · rw [alGet?_mapSet]
            by_cases hc : e.dst = p.v
            · rw [if_pos hc]; rfl
            · rw [if_neg hc]; exact core.kDom p hm
          · show (alGet? (mapSet dhat e.dst (dv + e.w)) e.dst).isSome
            rw [alGet?_mapSet, if_pos rfl]
            rfl
        · intro w hwU d0 hd0 hd0INF
          by_cases hwe : w = e.dst
          · subst hwe
            rw [alGet?_mapSet, if_pos rfl] at hd0
            obtain rfl : dv + e.w = d0 := Option.some.inj hd0
            exact mem_hpush.mpr (Or.inr rfl)
          · rw [alGet?_mapSet, if_neg (fun hc => hwe hc.symm)] at hd0
            exact mem_hpush.mpr (Or.inl (core.tKey w hwU d0 hd0 hd0INF))
        · rw [alGet?_mapSet, if_neg hdstx]
          exact core.xzero
        · intro w hwg
          rw [alGet?_mapSet]
          by_cases hc : e.dst = w
          · rw [if_pos hc]; rfl
          · rw [if_neg hc]; exact core.dom w hwg
        · intro w
          rw [mapGet_mapSet]
          by_cases hc : e.dst = w
          · rw [if_pos hc]; exact hnd0
          · rw [if_neg hc]; exact core.dnn w
      have hproc' : ∀ e2 ∈ g.outEdges v, e2 ∉ rest →
          B ≤ dv + e2.w ∨ mapGet (mapSet dhat e.dst (dv + e.w)) e2.dst ≤ dv + e2.w := by
        intro e2 he2 hne
        by_cases hee : e2 = e
        · subst hee
          right
          rw [mapGet_mapSet, if_pos rfl]
        · rcases hproc e2 he2
            (fun hmem => (List.mem_cons.mp hmem).elim hee hne) with hB | hle
          · exact Or.inl hB
          · exact Or.inr (le_trans (hmono e2.dst) hle)
      obtain ⟨hs, hm, hc, hp⟩ := ih (hpush h ⟨e.dst, dv + e.w⟩)
        (mapSet dhat e.dst (dv + e.w))
        (fun e2 he2 => hsub e2 (by simp [he2])) hmv' core' hproc'
      refine ⟨?_, ?_, hc, hp⟩
      · intro w hwU
        rw [hs w hwU, hkeep w (fun hc2 => hdstU (hc2 ▸ hwU))]
      · intro w
        exact le_trans (hm w) (hmono w)
    · rw [if_neg hcond]
      have hproc' : ∀ e2 ∈ g.outEdges v, e2 ∉ rest →
          B ≤ dv + e2.w ∨ mapGet dhat e2.dst ≤ dv + e2.w := by
        intro e2 he2 hne
        by_cases hee : e2 = e
        · subst hee
          rcases Decidable.not_and_iff_or_not.mp hcond with hc | hc
          · exact Or.inr (not_lt.mp hc)
          · exact Or.inl (not_lt.mp hc)
        · exact hproc e2 he2 (fun hmem => (List.mem_cons.mp hmem).elim hee hne)
      exact ih h dhat (fun e2 he2 => hsub e2 (by simp [he2])) hmv core hproc'

/-- The BaseCase main loop keeps every settled vertex at its exact shortest
distance below B and settles at most k+1 vertices (the visited set is always
the settled set U0, so the loop is stated with the two arguments shared). -/
theorem bcLoop_contract {g : Graph} {x : NodeID} {B : Dst} {k : ℤ} (hw : WNN g) :
    ∀ (fuel : ℕ) (h : List Pair) (dhat : DMap) (U0 : NodeSet) (Bp : Dst)
      {dh : DMap} {U : NodeSet} {Bp' : Dst},
      bcLoop B k g fuel h dhat U0 U0 Bp = some (dh, U, Bp') →
      BCInv g x B h dhat U0 →
      (U0.length : ℤ) ≤ k + 1 →
      (∀ v ∈ U, IsShortest g x v (mapGet dh v) ∧ mapGet dh v < B) ∧
        (U.length : ℤ) ≤ k + 1 := by
  intro fuel
  induction fuel with
  | zero =>
    intro h dhat U0 Bp dh U Bp' hres
    simp [bcLoop] at hres
  | succ fuel ih =>
    intro h dhat U0 Bp dh U Bp' hres inv hlen
    unfold bcLoop at hres
    cases hpo : hpop h with
    | none =>
      rw [hpo] at hres
      simp only [Option.some.injEq, Prod.mk.injEq] at hres
      obtain ⟨rfl, rfl, rfl⟩ := hres
      exact ⟨fun w hwU => ⟨⟨inv.sReach w hwU, inv.sMin w hwU⟩, inv.sLt w hwU⟩, hlen⟩
    | some pr =>
      obtain ⟨it, h'⟩ := pr
      rw [hpo] at hres
      simp only at hres
      by_cases hbreak : B ≤ it.d ∨ k < (U0.length : ℤ)
      · rw [if_pos hbreak] at hres
        simp only [Option.some.injEq, Prod.mk.injEq] at hres
        obtain ⟨rfl, rfl, rfl⟩ := hres
        exact ⟨fun w hwU => ⟨⟨inv.sReach w hwU, inv.sMin w hwU⟩, inv.sLt w hwU⟩, hlen⟩
      · rw [if_neg hbreak] at hres
        have hmin : ∀ p ∈ h, it.d ≤ p.d := hpop_min inv.heap hpo
        have hitmem : it ∈ h := hpop_mem_self hpo
        have hheap' : IsMinHeap h' := hpop_heap inv.heap hpo
        push_neg at hbreak
        obtain ⟨hdB, hkU⟩ := hbreak
        by_cases hvis : it.v ∈ U0
        · rw [if_pos hvis] at hres
          have inv' : BCInv g x B h' dhat U0 :=
            { heap := hheap'
              sReach := inv.sReach
              sMin := inv.sMin
              sLt := inv.sLt
              frontier := inv.frontier
              kReach := fun p hp => inv.kReach p (mem_of_hpop hpo hp)
              kGe := fun p hp => inv.kGe p (mem_of_hpop hpo hp)
              kLt := fun p hp => inv.kLt p (mem_of_hpop hpo hp)
              kDom := fun p hp => inv.kDom p (mem_of_hpop hpo hp)
              tKey := fun w hwU d0 hd0 hINF => hpop_mem_of_ne hpo
                (inv.tKey w hwU d0 hd0 hINF) (by
                  intro hc
                  apply hwU
                  rw [show w = it.v from congrArg Pair.v hc]
                  exact hvis)
              xzero := inv.xzero
              dom := inv.dom
              dnn := inv.dnn }
          exact ih h' dhat U0 Bp hres inv' hlen
        · rw [if_neg hvis] at hres
          have hkReach_it : Reaches g x it.v it.d := inv.kReach it hitmem
          have hge : mapGet dhat it.v ≤ it.d := inv.kGe it hitmem
          have hlt_top : it.d < ⊤ := lt_of_lt_of_le hdB le_top
          obtain ⟨d0, hd0⟩ := Option.isSome_iff_exists.mp (inv.kDom it hitmem)
          have hd0v : mapGet dhat it.v = d0 := by simp [mapGet, hd0]
          have hd0top : d0 ≠ INF := by
            intro hc
            rw [hc] at hd0v
            have htop : (INF : Dst) ≤ it.d := hd0v ▸ hge
            exact absurd (lt_of_le_of_lt htop hlt_top) (lt_irrefl _)
          have hkey := inv.tKey it.v hvis d0 hd0 hd0top
          have heq : mapGet dhat it.v = it.d :=
            le_antisymm hge (hd0v ▸ hmin _ hkey)
          have hminim : ∀ d', Reaches g x it.v d' → it.d ≤ d' := by
            intro d' hd'
            rcases (bc_cut hw inv hmin hd').2 hvis with h1 | h1
            · exact h1
            · exact le_trans (le_of_lt hdB) h1
          have core1 : BCCore g x B h' dhat (nsAdd U0 it.v) :=
            { heap := hheap'
              sReach := by
                intro w hw2
                rcases mem_nsAdd.mp hw2 with hm | rfl
                · exact inv.sReach w hm
                · rw [heq]; exact hkReach_it
              sMin := by
                intro w hw2 d' hd'
                rcases mem_nsAdd.mp hw2 with hm | rfl
                · exact inv.sMin w hm d' hd'
                · rw [heq]; exact hminim d' hd'
              sLt := by
                intro w hw2
                rcases mem_nsAdd.mp hw2 with hm | rfl
                · exact inv.sLt w hm
                · rw [heq]; exact hdB
              kReach := fun p hp => inv.kReach p (mem_of_hpop hpo hp)
              kGe := fun p hp => inv.kGe p (mem_of_hpop hpo hp)
              kLt := fun p hp => inv.kLt p (mem_of_hpop hpo hp)
              kDom := fun p hp => inv.kDom p (mem_of_hpop hpo hp)
              tKey := by
                intro w hwU d1 hd1 hINF
                have hwold : w ∉ U0 := fun hc => hwU (mem_nsAdd.mpr (Or.inl hc))
                have hwit : w ≠ it.v := fun hc => hwU (mem_nsAdd.mpr (Or.inr hc))
                exact hpop_mem_of_ne hpo (inv.tKey w hwold d1 hd1 hINF)
                  (fun hc => hwit (congrArg Pair.v hc))
              xzero := inv.xzero
              dom := inv.dom
              dnn := inv.dnn }
          have hvU' : it.v ∈ nsAdd U0 it.v := mem_nsAdd.mpr (Or.inr rfl)
          obtain ⟨hs, hm, hcore2, hfrv⟩ := bcRelax_inv hw hkReach_it hvU'
            (g.outEdges it.v) h' dhat (fun e he => he) heq core1
            (fun e he hne => absurd he hne)
          have inv2 : BCInv g x B (bcRelax B it.d (g.outEdges it.v) h' dhat).1
              (bcRelax B it.d (g.outEdges it.v) h' dhat).2 (nsAdd U0 it.v) :=
            { toBCCore := hcore2
              frontier := by
                intro u hu e he
                rcases mem_nsAdd.mp hu with hm2 | rfl
                · have hune : u ≠ it.v := fun hc => hvis (hc ▸ hm2)
                  rcases inv.frontier u hm2 e he with hB | hle
                  · left
                    rw [hs u (mem_nsAdd.mpr (Or.inl hm2))]
                    exact hB
                  · right
                    rw [hs u (mem_nsAdd.mpr (Or.inl hm2))]
                    exact le_trans (hm e.dst) hle
                · rcases hfrv e he with hB | hle
                  · left
                    rw [hs it.v hvU', heq]
                    exact hB
                  · right
                    rw [hs it.v hvU', heq]
                    exact hle }
          have hlen' : ((nsAdd U0 it.v).length : ℤ) ≤ k + 1 := by
            rw [nsAdd_length, if_neg hvis]
            push_cast
            omega
          exact ih _ _ _ _ hres inv2 hlen'

/-- C2: For every terminating call BaseCase(B, {x}, k, g, dhat) with
non-negative weights, 0 ≤ k, fresh single-source distances (dhat[x] = 0 below
B, every other stored distance INF, every graph node present) the settled set
U0 satisfies: each of its vertices ends at its exact shortest distance from x,
below B; when |U0| ≤ k the call returns (B, U0), otherwise |U0| = k+1 exactly
and the call returns (Bmax, {v in U0 : dhat[v] < Bmax}) with Bmax the maximum
settled distance. -/
theorem baseCase_singleton_contract {fuel : ℕ} {B : Dst} {x : NodeID} {k : ℤ}
    {g : Graph} {dhat : DMap} {B' : Dst} {U : NodeSet} {dh : DMap}
    (hw : WNN g) (hk : 0 ≤ k)
    (hx0 : alGet? dhat x = some 0) (hxB : mapGet dhat x < B)
    (hinit : ∀ v, v ≠ x → ∀ d0, alGet? dhat v = some d0 → d0 = INF)
    (hdom : ∀ v ∈ gNodes g, (alGet? dhat v).isSome)
    (hres : baseCase fuel B [x] k g dhat = some (B', U, dh)) :
    ∃ U0 : NodeSet,
      (∀ v ∈ U0, IsShortest g x v (mapGet dh v) ∧ mapGet dh v < B) ∧
      (((U0.length : ℤ) ≤ k ∧ B' = B ∧ U = U0) ∨
        ((U0.length : ℤ) = k + 1 ∧ B' = bcMax dh U0 ∧
          U = U0.filter (fun v => decide (mapGet dh v < bcMax dh U0)))) := by
  unfold baseCase at hres
  have hmx : mapGet dhat x = 0 := by simp [mapGet, hx0]
  have hxB0 : (0 : Dst) < B := hmx ▸ hxB
  have hinith : ([x] : NodeSet).foldl (fun h x => hpush h ⟨x, mapGet dhat x⟩) []
      = [⟨x, mapGet dhat x⟩] := by
    simp [hpush, siftUpF]
  rw [hinith, hmx] at hres
  cases hloop : bcLoop B k g fuel [⟨x, 0⟩] dhat [] [] B with
  | none => rw [hloop] at hres; simp at hres
  | some tr =>
    obtain ⟨dh1, U0, Bp⟩ := tr
    rw [hloop] at hres
    simp only at hres
    have inv0 : BCInv g x B [⟨x, 0⟩] dhat [] :=
      { heap := by intro j hj0 hjl; simp at hjl; omega
        sReach := fun v hv => absurd hv (List.not_mem_nil v)
        sMin := fun v hv => absurd hv (List.not_mem_nil v)
        sLt := fun v hv => absurd hv (List.not_mem_nil v)
        frontier := fun v hv => absurd hv (List.not_mem_nil v)
        kReach := by
          intro p hp
          rw [List.mem_singleton] at hp
          subst hp
          exact Reaches.refl
        kGe := by
          intro p hp
          rw [List.mem_singleton] at hp
          subst hp
          rw [show (⟨x, 0⟩ : Pair).v = x from rfl, hmx]
        kLt := by
          intro p hp
          rw [List.mem_singleton] at hp
          subst hp
          exact hxB0
        kDom := by
          intro p hp
          rw [List.mem_singleton] at hp
          subst hp
          rw [show (⟨x, 0⟩ : Pair).v = x from rfl, hx0]
          rfl
        tKey := by
          intro w hwU d1 hd1 hINF
          by_cases hwx : w = x
          · subst hwx
            rw [hx0] at hd1
            obtain rfl : (0 : Dst) = d1 := Option.some.inj hd1
            exact List.mem_singleton.mpr rfl
          · exact absurd (hinit w hwx d1 hd1) hINF
        xzero := hx0
        dom := hdom
        dnn := by
          intro v
          cases hv : alGet? dhat v with
          | none => simp [mapGet, hv]
          | some d1 =>
            by_cases hvx : v = x
            · subst hvx
              rw [hv] at hx0
              obtain rfl : d1 = 0 := Option.some.inj hx0
              simp [mapGet, hv]
            · have hID := hinit v hvx d1 hv
              subst hID
              simp [mapGet, hv, INF] }
    obtain ⟨hsettled, hlenU⟩ := bcLoop_contract hw fuel _ _ _ _ hloop inv0
      (by simp; omega)
    by_cases hsz : (U0.length : ℤ) ≤ k
    · rw [if_pos hsz] at hres
      simp only [Option.some.injEq, Prod.mk.injEq] at hres
      obtain ⟨rfl, rfl, rfl⟩ := hres
      exact ⟨U0, hsettled, Or.inl ⟨hsz, rfl, rfl⟩⟩
    · rw [if_neg hsz] at hres
      simp only [Option.some.injEq, Prod.mk.injEq] at hres
      obtain ⟨rfl, rfl, rfl⟩ := hres
      exact ⟨U0, hsettled, Or.inr ⟨by omega, rfl, rfl⟩⟩

/-- Closed instance of the BaseCase contract on cexG from source 0 with
B = 1000, k = 10: all four vertices settle below k+1, so the first branch
returns (B, U0) with the exact distances 0, 3/8, 1/8, 11/8. -/
theorem baseCase_singleton_contract_witness :
    ∃ U0 : NodeSet,
      (∀ v ∈ U0, IsShortest cexG 0 v
          (mapGet [(0, ((0 : ℚ) : Dst)), (1, ((3/8 : ℚ) : Dst)),
            (2, ((1/8 : ℚ) : Dst)), (3, ((11/8 : ℚ) : Dst))] v) ∧
        mapGet [(0, ((0 : ℚ) : Dst)), (1, ((3/8 : ℚ) : Dst)),
            (2, ((1/8 : ℚ) : Dst)), (3, ((11/8 : ℚ) : Dst))] v
          < ((1000 : ℚ) : Dst)) ∧
      (((U0.length : ℤ) ≤ 10 ∧ ((1000 : ℚ) : Dst) = ((1000 : ℚ) : Dst) ∧
          ([0, 2, 1, 3] : NodeSet) = U0) ∨
        ((U0.length : ℤ) = 10 + 1 ∧
          ((1000 : ℚ) : Dst) = bcMax [(0, ((0 : ℚ) : Dst)), (1, ((3/8 : ℚ) : Dst)),
            (2, ((1/8 : ℚ) : Dst)), (3, ((11/8 : ℚ) : Dst))] U0 ∧
          ([0, 2, 1, 3] : NodeSet) = U0.filter (fun v =>
            decide (mapGet [(0, ((0 : ℚ) : Dst)), (1, ((3/8 : ℚ) : Dst)),
              (2, ((1/8 : ℚ) : Dst)), (3, ((11/8 : ℚ) : Dst))] v
                < bcMax [(0, ((0 : ℚ) : Dst)), (1, ((3/8 : ℚ) : Dst)),
                  (2, ((1/8 : ℚ) : Dst)), (3, ((11/8 : ℚ) : Dst))] U0)))) :=
  @baseCase_singleton_contract 30 ((1000 : ℚ) : Dst) 0 10 cexG
    [(0, ((0 : ℚ) : Dst)), (1, INF), (2, INF), (3, INF)]
    ((1000 : ℚ) : Dst) [0, 2, 1, 3]
    [(0, ((0 : ℚ) : Dst)), (1, ((3/8 : ℚ) : Dst)), (2, ((1/8 : ℚ) : Dst)),
      (3, ((11/8 : ℚ) : Dst))]
    (by decide) (by decide) (by decide) (by decide)
    (by
      intro v hv d0 h
      simp only [alGet?] at h
      split_ifs at h with h1 h2 h3 h4
      · exact absurd h1.symm hv
      · exact (Option.some.inj h).symm
      · exact (Option.some.inj h).symm
      · exact (Option.some.inj h).symm)
    (by decide) (by decide)

end Bmssp
